import Mathlib

/-!
Shallow embedding of the hypercube core of this repository
(`src/bits.py` and `src/cubes.py`), together with proofs about the
claims of the spec about it.

Conventions used throughout:

* Python exceptions are modelled with `Except String` / `Option`
  results: an `Except.error` / `none` value marks the point where the
  Python code raises, and operations that mutate partway keep the
  partially-updated state explicitly.
* A Python color value is an `Option String`: `none` is Python `None`
  (the construction-time value), `some s` is the string `s`.
* Machine integers are `Nat` / `Int`.  Python list indexing (including
  its negative-index semantics) is spelled out where it matters.
-/

namespace Cubes

namespace bits

/-- `bits.bit_string_to_int`: fold a big-endian `[01]+` string into a `Nat`
by `result = (result << 1) + int(bit)`.  The regex `BIT_STRING_PATTERN`
requires at least one character, each `0` or `1`; otherwise Python raises
`ValueError`. -/
def bit_string_to_int (s : List Char) : Except String Nat :=
  if s ≠ [] ∧ ∀ c ∈ s, c = '0' ∨ c = '1' then
    Except.ok (s.foldl (fun result bit => 2 * result + (if bit = '1' then 1 else 0)) 0)
  else Except.error "Badly formed bit string"

/-- The `dimension`-character zero-padded big-endian binary rendering that
`bits.int_to_bit_string` produces through the Python format string
`"{:0<dimension>b}"`: for `number < 2 ^ dimension` and `dimension ≥ 1`
this is exactly `dimension` characters, character `i` being bit
`dimension - 1 - i` of `number`. -/
def bit_chars (number dimension : Nat) : List Char :=
  (List.range dimension).map (fun i =>
    if number.testBit (dimension - 1 - i) then '1' else '0')

/-- `bits.int_to_bit_string`.  Python raises when `number` is outside
`[0, 2 ^ dimension)` (negative numbers and negative dimensions are not
representable here); `dimension = 0` yields the literal string `"0"`. -/
def int_to_bit_string (number dimension : Nat) : Except String (List Char) :=
  if 2 ^ dimension ≤ number then Except.error "OutOfRange"
  else if dimension = 0 then Except.ok ['0']
  else Except.ok (bit_chars number dimension)

/-- Fuel-bounded core of `bits.weight`: one fuel unit per iteration of
the Python `while number > 0` loop. -/
def weightGo : Nat → Nat → Nat
  | _, 0 => 0
  | 0, _ + 1 => 0
  | fuel + 1, n + 1 => (n + 1) % 2 + weightGo fuel ((n + 1) / 2)

/-- `bits.weight`: binary digit sum, looping `while number > 0`
accumulating `number % 2` and halving.  The loop halves `number` each
iteration, so `number` iterations always suffice; passing `number`
itself as structural fuel keeps the definition kernel-reducible, and
`weight_succ` below recovers the natural recursion of the loop. -/
def weight (number : Nat) : Nat := weightGo number number

theorem weightGo_congr : ∀ {fuel : Nat} {fuel2 n : Nat}, n ≤ fuel → n ≤ fuel2 →
    weightGo fuel n = weightGo fuel2 n := by
  intro fuel
  induction fuel with
  | zero =>
      intro fuel2 n h1 _
      interval_cases n
      cases fuel2 with
      | zero => rfl
      | succ f2 => rfl
  | succ f ih =>
      intro fuel2 n h1 h2
      cases n with
      | zero =>
          cases fuel2 with
          | zero => rfl
          | succ f2 => rfl
      | succ n0 =>
          cases fuel2 with
          | zero => omega
          | succ f2 =>
              show (n0 + 1) % 2 + weightGo f ((n0 + 1) / 2) =
                (n0 + 1) % 2 + weightGo f2 ((n0 + 1) / 2)
              rw [@ih f2 ((n0 + 1) / 2) (by omega) (by omega)]

theorem weight_zero : weight 0 = 0 := rfl

theorem weight_succ (n : Nat) : weight (n + 1) = (n + 1) % 2 + weight ((n + 1) / 2) := by
  show (n + 1) % 2 + weightGo n ((n + 1) / 2) = (n + 1) % 2 + weightGo ((n + 1) / 2) ((n + 1) / 2)
  rw [weightGo_congr (by omega) (le_refl _)]

/-- `bits.permute_bits_by_index_list`: validates that the index list has
length `dimension` and covers every index below `dimension` (which by
counting forces it to be a permutation of `0, …, dimension - 1`), then
rebuilds the bit string with character `j` taken from input position
`list_of_indices[j]` and converts back.  For `dimension = 0` the rebuilt
string is empty and `bit_string_to_int` raises. -/
def permute_bits_by_index_list (number : Nat) (list_of_indices : List Nat)
    (dimension : Nat) : Except String Nat :=
  if list_of_indices.length ≠ dimension then
    Except.error "the list of indices must be of length dimension"
  else if ¬ ∀ i ∈ List.range dimension, i ∈ list_of_indices then
    Except.error "The list does not specify a valid permutation."
  else
    match int_to_bit_string number dimension with
    | Except.error e => Except.error e
    | Except.ok bit_string =>
        bit_string_to_int (list_of_indices.map (fun i => bit_string.getD i '?'))

/-- `bits.truncate_within_dimension`: Python computes
`number & ((2 ** dimension) - 1)`.  On the signed
arbitrary-precision Python integers (which behave as in binary complement), bitwise AND with the all-ones mask
`2 ^ dimension - 1` is exactly the nonnegative residue of `number`
modulo `2 ^ dimension`, which is how we embed it. -/
def truncate_within_dimension (number : Int) (dimension : Nat) : Nat :=
  (number % (2 ^ dimension : Int)).toNat

/-- The alphabet `[01*]+` of `bits.WILDCARD_STRING_PATTERN` (one character). -/
def wildcard_char (c : Char) : Bool :=
  c = '0' || c = '1' || c = '*'

/-- The inner `matches` predicate of `bits.pattern_to_int_list`: position
`i` of the pattern either is `*` or equals position `i` of the bit string of the number.  It is only ever invoked with `number < 2 ^ dimension` and a
nonempty pattern of length `dimension` (so `dimension ≥ 1` and
`int_to_bit_string` cannot raise and returns `bit_chars`). -/
def matches_pattern (pattern : List Char) (dimension number : Nat) : Bool :=
  (List.range dimension).all (fun i =>
    pattern.getD i '?' = '*' || pattern.getD i '?' = (bit_chars number dimension).getD i '?')

/-- `bits.pattern_to_int_list`: validate the alphabet (the regex needs at
least one character) and the length, then filter `range (2 ^ dimension)`
by `matches`. -/
def pattern_to_int_list (pattern : List Char) (dimension : Nat) :
    Except String (List Nat) :=
  if ¬ (pattern ≠ [] ∧ ∀ c ∈ pattern, wildcard_char c) then
    Except.error "the string needs to consist of 1, 0, and *"
  else if pattern.length ≠ dimension then
    Except.error "the string needs to be of length dimension"
  else
    Except.ok ((List.range (2 ^ dimension)).filter
      (fun number => matches_pattern pattern dimension number))

/-- `bits.how_many_bit_strings` (a negative dimension, which Python maps
to 0, is not representable for a `Nat` dimension). -/
def how_many_bit_strings (dimension : Nat) : Nat := 2 ^ dimension

end bits

/-- Python `Vertex.__init__`: `color_string = None`, plus the id and the
dimension (the latter only feeds rendering). -/
structure Vertex where
  color_string : Option String
  vertex_id : Nat
  dimension : Nat
deriving DecidableEq, Repr, Inhabited

/-- `Vertex.color`: overwrite the color string. -/
def Vertex.color (v : Vertex) (c : Option String) : Vertex :=
  { v with color_string := c }

/-- Python `VertexSet`: the dimension and the location-indexed list of
vertices. -/
structure VertexSet where
  dimension : Nat
  vertices : List Vertex
deriving DecidableEq, Repr, Inhabited

/-- `VertexSet.__init__`: vertex `i` starts at location `i`, uncolored. -/
def VertexSet.init (dimension : Nat) : VertexSet :=
  let number_of_vertices := bits.how_many_bit_strings dimension
  let vs := (List.range number_of_vertices).map
    (fun i => { color_string := none, vertex_id := i, dimension := dimension : Vertex })
  { dimension := dimension, vertices := vs }

/-- `VertexSet.lookup_vertex_by_location`: Python list indexing with
`IndexError` mapped to `None`.  A negative index `-k` with `k ≤ len`
addresses position `len - k` (Python negative-index semantics); only
`location ≥ len` and `location < -len` raise `IndexError`. -/
def VertexSet.lookup_vertex_by_location (s : VertexSet) (location : Int) : Option Vertex :=
  if 0 ≤ location then
    if location.toNat < s.vertices.length then
      some (s.vertices.getD location.toNat default)
    else none
  else
    if (-location).toNat ≤ s.vertices.length then
      some (s.vertices.getD (s.vertices.length - (-location).toNat) default)
    else none

/-- `VertexSet.lookup_id_by_location`. -/
def VertexSet.lookup_id_by_location (s : VertexSet) (location : Int) : Option Nat :=
  (s.lookup_vertex_by_location location).map Vertex.vertex_id

/-- Helper for `VertexSet.lookup_location_by_id`: index of the first
vertex carrying the id (`next(enumerate …)` with `StopIteration` as
`none`). -/
def lookup_location_in (vertex_id : Nat) : List Vertex → Option Nat
  | [] => none
  | v :: rest =>
      if v.vertex_id = vertex_id then some 0
      else (lookup_location_in vertex_id rest).map (· + 1)

/-- `VertexSet.lookup_location_by_id`. -/
def VertexSet.lookup_location_by_id (s : VertexSet) (vertex_id : Nat) : Option Nat :=
  lookup_location_in vertex_id s.vertices

/-- `VertexSet.lookup_vertex_by_id`. -/
def VertexSet.lookup_vertex_by_id (s : VertexSet) (vertex_id : Nat) : Option Vertex :=
  match s.lookup_location_by_id vertex_id with
  | none => none
  | some location => some (s.vertices.getD location default)

/-- `VertexSet.color_by_id`: color the object `lookup_vertex_by_id`
finds, i.e. the vertex at the first location carrying the id; `none`
models the `ValueError` raised when no vertex has the id. -/
def VertexSet.color_by_id (s : VertexSet) (vertex_id : Nat) (c : Option String) :
    Option VertexSet :=
  match s.lookup_location_by_id vertex_id with
  | none => none
  | some location =>
      let vs := s.vertices.set location ((s.vertices.getD location default).color c)
      some { s with vertices := vs }

/-- `VertexSet.uncolor_by_id`: color with the empty string. -/
def VertexSet.uncolor_by_id (s : VertexSet) (vertex_id : Nat) : Option VertexSet :=
  s.color_by_id vertex_id (some "")

/-- `VertexSet.color_by_location`: translate the location to an id, then
color by id.  When the location resolves to nothing, Python passes
`None` as the id to `color_by_id`, which finds no vertex and raises. -/
def VertexSet.color_by_location (s : VertexSet) (location : Int) (c : Option String) :
    Option VertexSet :=
  match s.lookup_id_by_location location with
  | none => none
  | some vertex_id => s.color_by_id vertex_id c

/-- `VertexSet.color_vertices_by_id_list`: best-effort loop.  The `Bool`
records whether a `ValueError` was raised partway; in that case the
colorings already applied in place remain. -/
def VertexSet.color_vertices_by_id_list : VertexSet → List Nat → Option String → VertexSet × Bool
  | s, [], _ => (s, false)
  | s, vertex_id :: rest, c =>
      match s.color_by_id vertex_id c with
      | none => (s, true)
      | some s2 => s2.color_vertices_by_id_list rest c

/-- `VertexSet.uncolor_vertices_by_id_list`. -/
def VertexSet.uncolor_vertices_by_id_list (s : VertexSet) (ids : List Nat) : VertexSet × Bool :=
  s.color_vertices_by_id_list ids (some "")

/-- The in-place write loop shared by `map_to_locations`,
`map_to_locations_not_colors` and `reset_positions`: perform
`vertices[w.1] = w.2` for each write in order.  (All writes issued by
our call sites target indices below the list length; a Python write at
an out-of-range index would raise, while `List.set` ignores it.) -/
def applyWrites : List Vertex → List (Nat × Vertex) → List Vertex
  | vs, [] => vs
  | vs, w :: ws => applyWrites (vs.set w.1 w.2) ws

/-- `VertexSet.map_to_locations`: iterate over a copy of the vertex list,
sending the vertex at `location` to `function location`. -/
def VertexSet.map_to_locations (s : VertexSet) (function : Nat → Nat) : VertexSet :=
  let writes := (List.range s.vertices.length).map
    (fun location => (function location, s.vertices.getD location default))
  { s with vertices := applyWrites s.vertices writes }

/-- The final loop of `map_to_locations_not_colors`: one
`color_by_location location color` per saved `(location, color)` pair, in
insertion order.  A raising call aborts the loop keeping the partial
state (Python propagates the exception). -/
def recolorLoop : VertexSet → List (Nat × Option String) → VertexSet
  | s, [] => s
  | s, (location, c) :: rest =>
      match s.color_by_location (location : Int) c with
      | none => s
      | some s2 => recolorLoop s2 rest

/-- `VertexSet.map_to_locations_not_colors`: the same relocation loop as
`map_to_locations` (saving the color at each location first), then re-pin the
saved colors location by location. -/
def VertexSet.map_to_locations_not_colors (s : VertexSet) (function : Nat → Nat) : VertexSet :=
  recolorLoop (s.map_to_locations function)
    ((List.range s.vertices.length).map
      (fun location => (location, (s.vertices.getD location default).color_string)))

/-- `VertexSet.rotate`.  When the index list is invalid or the dimension
is 0, `permute_bits_by_index_list` raises on the very first location,
before any relocation, leaving the vertex list untouched; otherwise it
succeeds on every location of a size-`2 ^ dimension` vertex list. -/
def VertexSet.rotate (s : VertexSet) (rotation_list : List Nat) (preserve_colors : Bool) :
    VertexSet :=
  match bits.permute_bits_by_index_list 0 rotation_list s.dimension with
  | Except.error _ => s
  | Except.ok _ =>
      let permute_bits := fun location =>
        (bits.permute_bits_by_index_list location rotation_list s.dimension).toOption.getD 0
      if preserve_colors then s.map_to_locations_not_colors permute_bits
      else s.map_to_locations permute_bits

/-- `VertexSet.reflect`: XOR every location with the truncated mask. -/
def VertexSet.reflect (s : VertexSet) (bit_mask : Int) (preserve_colors : Bool) : VertexSet :=
  let mask := bits.truncate_within_dimension bit_mask s.dimension
  let flip_function := fun location => location ^^^ mask
  if preserve_colors then s.map_to_locations_not_colors flip_function
  else s.map_to_locations flip_function

/-- `VertexSet.reset_positions`: iterate over a copy, sending each vertex
to the location equal to its own id. -/
def VertexSet.reset_positions (s : VertexSet) : VertexSet :=
  let writes := s.vertices.map (fun v => (v.vertex_id, v))
  { s with vertices := applyWrites s.vertices writes }

/-- Python `EdgeSet.edges`: an insertion-ordered dict from id pairs to
color strings, embedded as an association list with pairwise-distinct
keys. -/
abbrev Edges := List ((Nat × Nat) × String)

/-- `EdgeSet.__init__`: enumerate the pairs `(low_index, high_index)`
with `low_index ≤ high_index < 2 ^ dimension` at Hamming weight
(`bits.weight` of the XOR) equal to 1, inserting each with color `""`.
The inner Python loop `range(low_index, number_of_vertices)` is
`List.range' low_index (number_of_vertices - low_index)`. -/
def EdgeSet.init (dimension : Nat) : Edges :=
  let number_of_vertices := bits.how_many_bit_strings dimension
  (List.range number_of_vertices).flatMap (fun low_index =>
    ((List.range' low_index (number_of_vertices - low_index)).filter
        (fun high_index => decide (bits.weight (low_index ^^^ high_index) = 1))).map
      (fun high_index => ((low_index, high_index), "")))

/-- Python `key in self.edges`: key membership in the dict. -/
def edgeMem (edges : Edges) (key : Nat × Nat) : Bool :=
  edges.any (fun e => decide (e.1 = key))

/-- Python dict assignment `self.edges[key] = c` for a key already
present (our callers check membership first): replace the value at the
key, keeping insertion order. -/
def setEdgeColor (edges : Edges) (key : Nat × Nat) (c : String) : Edges :=
  edges.map (fun e => if e.1 = key then (key, c) else e)

/-- `EdgeSet.color_by_ids`: try the key `(u_id, v_id)`, then the swapped
key; `none` models the `ValueError` when neither is an edge. -/
def EdgeSet.color_by_ids (edges : Edges) (u_id v_id : Nat) (c : String) : Option Edges :=
  if edgeMem edges (u_id, v_id) then some (setEdgeColor edges (u_id, v_id) c)
  else if edgeMem edges (v_id, u_id) then some (setEdgeColor edges (v_id, u_id) c)
  else none

/-- `EdgeSet.uncolor_by_ids`: color with the empty string. -/
def EdgeSet.uncolor_by_ids (edges : Edges) (u_id v_id : Nat) : Option Edges :=
  EdgeSet.color_by_ids edges u_id v_id ""

/-- `EdgeSet.lookup_color_by_vertex_ids`: dict lookup of `(u_id, v_id)`,
then of the swapped pair, else `None`. -/
def EdgeSet.lookup_color_by_vertex_ids (edges : Edges) (u_id v_id : Nat) : Option String :=
  match edges.find? (fun e => decide (e.1 = (u_id, v_id))) with
  | some e => some e.2
  | none =>
      match edges.find? (fun e => decide (e.1 = (v_id, u_id))) with
      | some e => some e.2
      | none => none

/-- `EdgeSet.get_induced_edges_from_id_list`: the double loop over
`i ≤ j < len(vertex_id_list)` appending the ordered pair
`(vertex_id_list[i], vertex_id_list[j])` whenever it is a dict key. -/
def EdgeSet.get_induced_edges_from_id_list (edges : Edges) (vertex_id_list : List Nat) :
    List (Nat × Nat) :=
  let length := vertex_id_list.length
  (List.range length).flatMap (fun i =>
    ((List.range' i (length - i)).filter (fun j =>
        edgeMem edges (vertex_id_list.getD i 0, vertex_id_list.getD j 0))).map
      (fun j => (vertex_id_list.getD i 0, vertex_id_list.getD j 0)))

/-- The loop of `EdgeSet.color_edges_by_id_list`: color each induced edge
in order (each `color_by_ids` call succeeds because induced edges are
dict keys; a failing call would abort keeping the partial state). -/
def colorEdgesLoop : Edges → List (Nat × Nat) → String → Edges
  | edges, [], _ => edges
  | edges, (u, v) :: rest, c =>
      match EdgeSet.color_by_ids edges u v c with
      | none => edges
      | some edges2 => colorEdgesLoop edges2 rest c

/-- `EdgeSet.color_edges_by_id_list`. -/
def EdgeSet.color_edges_by_id_list (edges : Edges) (ids : List Nat) (c : String) : Edges :=
  colorEdgesLoop edges (EdgeSet.get_induced_edges_from_id_list edges ids) c

/-- `EdgeSet.uncolor_edges_by_id_list`. -/
def EdgeSet.uncolor_edges_by_id_list (edges : Edges) (ids : List Nat) : Edges :=
  EdgeSet.color_edges_by_id_list edges ids ""

/-- Python `Cube`: a dimension plus the `VertexSet` and the `EdgeSet`
built for it.  (In Python the `EdgeSet` holds a reference to the same
`VertexSet` object; it uses it only for location-to-id translation, so
we keep the two side by side instead.) -/
structure Cube where
  dimension : Nat
  vertex_set : VertexSet
  edge_set : Edges
deriving DecidableEq, Repr, Inhabited

/-- `Cube.__init__`. -/
def Cube.init (dimension : Nat) : Cube :=
  { dimension := dimension
    vertex_set := VertexSet.init dimension
    edge_set := EdgeSet.init dimension }

/-- `Cube.rotate`: delegate to the vertex set. -/
def Cube.rotate (c : Cube) (rotation_list : List Nat) (preserve_colors : Bool) : Cube :=
  { c with vertex_set := c.vertex_set.rotate rotation_list preserve_colors }

/-- `Cube.reflect`: delegate to the vertex set. -/
def Cube.reflect (c : Cube) (bit_mask : Int) (preserve_colors : Bool) : Cube :=
  { c with vertex_set := c.vertex_set.reflect bit_mask preserve_colors }

/-- `Cube.reset_positions`: delegate to the vertex set. -/
def Cube.reset_positions (c : Cube) : Cube :=
  { c with vertex_set := c.vertex_set.reset_positions }

/-- `Cube.color_vertices_by_id_list`: delegate; the `Bool` again records
a raised `ValueError`. -/
def Cube.color_vertices_by_id_list (c : Cube) (ids : List Nat) (color : Option String) :
    Cube × Bool :=
  let r := c.vertex_set.color_vertices_by_id_list ids color
  ({ c with vertex_set := r.1 }, r.2)

/-- `Cube.uncolor_vertices_by_id_list`. -/
def Cube.uncolor_vertices_by_id_list (c : Cube) (ids : List Nat) : Cube × Bool :=
  c.color_vertices_by_id_list ids (some "")

/-- `Cube.color_edges_by_id_list`: delegate to the edge set. -/
def Cube.color_edges_by_id_list (c : Cube) (ids : List Nat) (color : String) : Cube :=
  { c with edge_set := EdgeSet.color_edges_by_id_list c.edge_set ids color }

/-- `Cube.uncolor_edges_by_id_list`. -/
def Cube.uncolor_edges_by_id_list (c : Cube) (ids : List Nat) : Cube :=
  { c with edge_set := EdgeSet.uncolor_edges_by_id_list c.edge_set ids }

/-- The public mutating operations of `Cube`: rotate, reflect, reset,
and the vertex/edge color and uncolor operations. -/
inductive Op
  | rotate (rotation_list : List Nat) (preserve_colors : Bool)
  | reflect (bit_mask : Int) (preserve_colors : Bool)
  | reset
  | colorVertices (ids : List Nat) (color : String)
  | uncolorVertices (ids : List Nat)
  | colorEdges (ids : List Nat) (color : String)
  | uncolorEdges (ids : List Nat)
deriving DecidableEq, Repr

/-- Apply one public `Cube` operation (for the fallible coloring loops,
the resulting—possibly partially updated—cube state). -/
def applyOp (c : Cube) : Op → Cube
  | Op.rotate rl p => c.rotate rl p
  | Op.reflect m p => c.reflect m p
  | Op.reset => c.reset_positions
  | Op.colorVertices ids color => (c.color_vertices_by_id_list ids (some color)).1
  | Op.uncolorVertices ids => (c.uncolor_vertices_by_id_list ids).1
  | Op.colorEdges ids color => c.color_edges_by_id_list ids color
  | Op.uncolorEdges ids => c.uncolor_edges_by_id_list ids

/-- Apply a sequence of public `Cube` operations in order. -/
def applyOps (c : Cube) (ops : List Op) : Cube := ops.foldl applyOp c

/-- A valid rotate carries a genuine permutation specification (length
equal to the dimension and covering every index below it, which by
counting forces a permutation); every other operation accepts any
arguments. -/
def ValidOp (dimension : Nat) : Op → Prop
  | Op.rotate rl _ => rl.length = dimension ∧ ∀ i < dimension, i ∈ rl
  | _ => True

/-! ### Helper lemmas about list access and id lookup -/

theorem getD_of_lt {α : Type _} (l : List α) (d : α) {n : Nat} (h : n < l.length) :
    l.getD n d = l[n] := by
  simp [List.getD_eq_getElem?_getD, List.getElem?_eq_getElem h]

theorem lookup_location_in_some {vertex_id : Nat} :
    ∀ {vs : List Vertex} {ℓ : Nat}, lookup_location_in vertex_id vs = some ℓ →
      ℓ < vs.length ∧ (vs.getD ℓ default).vertex_id = vertex_id := by
  intro vs
  induction vs with
  | nil => intro ℓ h; simp [lookup_location_in] at h
  | cons v rest ih =>
      intro ℓ h
      by_cases hv : v.vertex_id = vertex_id
      · simp only [lookup_location_in, if_pos hv, Option.some.injEq] at h
        subst h
        simpa using hv
      · simp only [lookup_location_in, if_neg hv, Option.map_eq_some'] at h
        obtain ⟨ℓ0, hr, hℓ⟩ := h
        obtain ⟨h1, h2⟩ := ih hr
        subst hℓ
        refine ⟨by simpa using h1, ?_⟩
        simpa using h2

theorem lookup_location_in_none {vertex_id : Nat} :
    ∀ {vs : List Vertex}, lookup_location_in vertex_id vs = none ↔
      ∀ v ∈ vs, v.vertex_id ≠ vertex_id := by
  intro vs
  induction vs with
  | nil => simp [lookup_location_in]
  | cons v rest ih =>
      by_cases hv : v.vertex_id = vertex_id
      · simp [lookup_location_in, hv]
      · simp [lookup_location_in, hv, ih]

theorem lookup_location_in_congr {vertex_id : Nat} :
    ∀ {vs ws : List Vertex}, vs.map Vertex.vertex_id = ws.map Vertex.vertex_id →
      lookup_location_in vertex_id vs = lookup_location_in vertex_id ws := by
  intro vs
  induction vs with
  | nil =>
      intro ws h
      cases ws with
      | nil => rfl
      | cons w ws2 => simp at h
  | cons v rest ih =>
      intro ws h
      cases ws with
      | nil => simp at h
      | cons w ws2 =>
          simp only [List.map_cons, List.cons.injEq] at h
          simp only [lookup_location_in, h.1, ih h.2]

theorem lookup_location_in_nodup :
    ∀ {vs : List Vertex} {ℓ : Nat}, (vs.map Vertex.vertex_id).Nodup → ℓ < vs.length →
      lookup_location_in (vs.getD ℓ default).vertex_id vs = some ℓ := by
  intro vs
  induction vs with
  | nil => intro ℓ _ h; simp at h
  | cons v rest ih =>
      intro ℓ hnd hℓ
      simp only [List.map_cons, List.nodup_cons] at hnd
      cases ℓ with
      | zero => simp [lookup_location_in]
      | succ ℓ0 =>
          have hℓ0 : ℓ0 < rest.length := by simpa using hℓ
          have hget : ((v :: rest).getD (ℓ0 + 1) default) = rest.getD ℓ0 default := by
            simp [List.getD_cons_succ]
          rw [hget]
          have hne : ¬ v.vertex_id = (rest.getD ℓ0 default).vertex_id := by
            intro heq
            apply hnd.1
            have : (rest.getD ℓ0 default).vertex_id ∈ rest.map Vertex.vertex_id := by
              rw [getD_of_lt _ _ hℓ0]
              exact List.mem_map_of_mem _ (List.getElem_mem hℓ0)
            rw [heq]
            exact this
          simp only [lookup_location_in, if_neg hne, ih hnd.2 hℓ0]
          rfl

/-! ### C4: lookup_vertex_by_location bounds behavior -/

/-- **C4, counterexample.**  On the dimension-1 cube (fresh, so `N = 2`),
looking up the negative location `-1` does not return `None`: the Python
negative indexing returns the vertex at location `N - 1 = 1`.  This
falsifies the claim that every negative location yields `None`. -/
theorem c4_counterexample :
    (VertexSet.init 1).lookup_vertex_by_location (-1) =
      some { color_string := none, vertex_id := 1, dimension := 1 }
    ∧ (VertexSet.init 1).lookup_vertex_by_location (-1) ≠ none := by
  constructor
  · rfl
  · intro h
    simp [VertexSet.lookup_vertex_by_location, VertexSet.init,
      bits.how_many_bit_strings] at h

/-- **C4, amended.**  For a vertex set of dimension `d` with `N = 2 ^ d`
vertices, `lookup_vertex_by_location` returns the vertex at `location`
for `location ∈ [0, N)`, and `None` for `location ≥ N` and for
`location < -N`; for `location ∈ [-N, -1]` it follows the Python
negative-index semantics and returns the vertex at `N + location`. -/
theorem lookup_vertex_by_location_spec (s : VertexSet) (location : Int)
    (hs : s.vertices.length = bits.how_many_bit_strings s.dimension) :
    (0 ≤ location → location < (bits.how_many_bit_strings s.dimension : Int) →
      s.lookup_vertex_by_location location = some (s.vertices.getD location.toNat default))
    ∧ ((bits.how_many_bit_strings s.dimension : Int) ≤ location →
        s.lookup_vertex_by_location location = none)
    ∧ (-(bits.how_many_bit_strings s.dimension : Int) ≤ location → location < 0 →
        s.lookup_vertex_by_location location =
          some (s.vertices.getD (s.vertices.length - (-location).toNat) default))
    ∧ (location < -(bits.how_many_bit_strings s.dimension : Int) →
        s.lookup_vertex_by_location location = none) := by
  refine ⟨?_, ?_, ?_, ?_⟩
  · intro h0 h1
    rw [VertexSet.lookup_vertex_by_location, if_pos h0, if_pos (by omega)]
  · intro h1
    rw [VertexSet.lookup_vertex_by_location, if_pos (by omega), if_neg (by omega)]
  · intro h0 h1
    rw [VertexSet.lookup_vertex_by_location, if_neg (by omega), if_pos (by omega)]
  · intro h1
    have hN : 0 < bits.how_many_bit_strings s.dimension := by
      unfold bits.how_many_bit_strings
      positivity
    have hN2 : (0 : Int) < (bits.how_many_bit_strings s.dimension : Int) := by
      exact_mod_cast hN
    rw [VertexSet.lookup_vertex_by_location, if_neg (by omega), if_neg (by omega)]

/-- **C4, witness** for the amended theorem: on the fresh dimension-2
vertex set, location `-1` resolves to the vertex at location `3`. -/
theorem lookup_vertex_by_location_spec_witness :
    (VertexSet.init 2).lookup_vertex_by_location (-1) =
      some ((VertexSet.init 2).vertices.getD ((VertexSet.init 2).vertices.length - 1) default) :=
  (lookup_vertex_by_location_spec (VertexSet.init 2) (-1) (by decide)).2.2.1
    (by decide) (by decide)

/-! ### Helper lemmas about edge coloring -/

theorem edgeMem_iff (edges : Edges) (k : Nat × Nat) :
    edgeMem edges k = true ↔ k ∈ edges.map Prod.fst := by
  unfold edgeMem
  rw [List.any_eq_true]
  simp only [decide_eq_true_eq, List.mem_map]

theorem setEdgeColor_keys (edges : Edges) (k : Nat × Nat) (c : String) :
    (setEdgeColor edges k c).map Prod.fst = edges.map Prod.fst := by
  unfold setEdgeColor
  rw [List.map_map]
  apply List.map_congr_left
  intro e _
  by_cases he : e.1 = k
  · simp [he]
  · simp [he]

theorem edgeMem_congr {edges edges2 : Edges}
    (h : edges.map Prod.fst = edges2.map Prod.fst) (k : Nat × Nat) :
    edgeMem edges k = edgeMem edges2 k := by
  rw [Bool.eq_iff_iff, edgeMem_iff, edgeMem_iff, h]

theorem find?_setEdgeColor_self (edges : Edges) (k : Nat × Nat) (c : String)
    (h : edgeMem edges k = true) :
    (setEdgeColor edges k c).find? (fun e => decide (e.1 = k)) = some (k, c) := by
  induction edges with
  | nil => simp [edgeMem] at h
  | cons e rest ih =>
      by_cases he : e.1 = k
      · unfold setEdgeColor
        rw [List.map_cons, if_pos he]
        exact List.find?_cons_of_pos _ (by simp)
      · unfold setEdgeColor
        rw [List.map_cons, if_neg he]
        rw [List.find?_cons_of_neg _ (by simp [he])]
        apply ih
        unfold edgeMem at h ⊢
        rw [List.any_cons] at h
        rcases (Bool.or_eq_true _ _).mp h with h2 | h2
        · exact absurd (of_decide_eq_true h2) he
        · exact h2

theorem find?_key_eq_none (edges : Edges) (k : Nat × Nat) (h : edgeMem edges k = false) :
    edges.find? (fun e => decide (e.1 = k)) = none := by
  rw [List.find?_eq_none]
  intro e he hk
  have hmem : edgeMem edges k = true :=
    (edgeMem_iff edges k).mpr (List.mem_map.mpr ⟨e, he, of_decide_eq_true hk⟩)
  rw [h] at hmem
  exact Bool.false_ne_true hmem

theorem set_getD_self {α : Type _} (l : List α) (d : α) :
    ∀ n, n < l.length → l.set n (l.getD n d) = l := by
  induction l with
  | nil => intro n h; simp at h
  | cons a rest ih =>
      intro n h
      cases n with
      | zero => simp
      | succ n0 =>
          simp only [List.set_cons_succ, List.getD_cons_succ]
          rw [ih n0 (by simpa using h)]

theorem color_by_id_map_id {s s2 : VertexSet} {vertex_id : Nat} {c : Option String}
    (h : s.color_by_id vertex_id c = some s2) :
    s2.vertices.map Vertex.vertex_id = s.vertices.map Vertex.vertex_id
    ∧ s2.dimension = s.dimension := by
  unfold VertexSet.color_by_id at h
  cases hl : s.lookup_location_by_id vertex_id with
  | none => rw [hl] at h; exact absurd h (by simp)
  | some ℓ =>
      rw [hl] at h
      simp only [Option.some.injEq] at h
      obtain ⟨hlen, hid⟩ := lookup_location_in_some hl
      subst h
      refine ⟨?_, rfl⟩
      rw [List.map_set]
      have hstep : ((s.vertices.getD ℓ default).color c).vertex_id =
          (s.vertices.getD ℓ default).vertex_id := rfl
      have h2 : (s.vertices.map Vertex.vertex_id).getD ℓ 0 =
          (s.vertices.getD ℓ default).vertex_id := by
        rw [getD_of_lt _ _ (by simpa using hlen), getD_of_lt _ _ hlen]
        simp
      rw [hstep, ← h2]
      exact set_getD_self _ _ _ (by simpa using hlen)

theorem lookup_vertex_by_id_eq (s : VertexSet) (vertex_id : Nat) (ℓ : Nat)
    (h : lookup_location_in vertex_id s.vertices = some ℓ) :
    s.lookup_vertex_by_id vertex_id = some (s.vertices.getD ℓ default) := by
  unfold VertexSet.lookup_vertex_by_id VertexSet.lookup_location_by_id
  rw [h]

/-! ### C6: color/uncolor round trip -/

/-- **C6, counterexample.**  On the fresh dimension-0 cube, coloring
vertex 0 and then uncoloring it leaves the color tag `some ""` (Python
`""`), while the tag the vertex carried at construction is `none`
(Python `None`), and the two differ.  So the round trip does **not**
restore the construction-time color value for vertices. -/
theorem c6_counterexample :
    ((((VertexSet.init 0).color_by_id 0 (some "RED")).bind
        (fun s => s.uncolor_by_id 0)).map (fun s => s.vertices.map Vertex.color_string))
      = some [some ""]
    ∧ (VertexSet.init 0).vertices.map Vertex.color_string = [none]
    ∧ (some "" : Option String) ≠ (none : Option String) := by
  refine ⟨rfl, rfl, by simp⟩

/-- **C6, amended.**  Coloring a present vertex and then uncoloring it
always succeeds and leaves the *empty* tag `""`—the uncolored tag—which
however differs from the construction-time vertex tag `None`; for edges
the uncolored tag after the round trip is `""`, which **is** exactly the
tag every edge carries at construction. -/
theorem color_uncolor_roundtrip (s : VertexSet) (vertex_id : Nat) (c : Option String)
    (s2 : VertexSet) (h : s.color_by_id vertex_id c = some s2) :
    (∃ s3, s2.uncolor_by_id vertex_id = some s3 ∧
        (s3.lookup_vertex_by_id vertex_id).map Vertex.color_string = some (some ""))
    ∧ (∀ d i, i < 2 ^ d →
        ((VertexSet.init d).lookup_vertex_by_id i).map Vertex.color_string = some none)
    ∧ (∀ (edges : Edges) (u v : Nat) (c2 : String) (edges2 : Edges),
        EdgeSet.color_by_ids edges u v c2 = some edges2 →
        ∃ edges3, EdgeSet.uncolor_by_ids edges2 u v = some edges3 ∧
          EdgeSet.lookup_color_by_vertex_ids edges3 u v = some "")
    ∧ (∀ (d : Nat) (e : (Nat × Nat) × String), e ∈ EdgeSet.init d → e.2 = "") := by
  refine ⟨?_, ?_, ?_, ?_⟩
  · -- vertex round trip ends at the empty tag
    obtain ⟨hids, _⟩ := color_by_id_map_id h
    unfold VertexSet.color_by_id at h
    cases hl : s.lookup_location_by_id vertex_id with
    | none => rw [hl] at h; exact absurd h (by simp)
    | some ℓ =>
        rw [hl] at h
        simp only [Option.some.injEq] at h
        obtain ⟨hlen, hid⟩ := lookup_location_in_some hl
        have hl2 : s2.lookup_location_by_id vertex_id = some ℓ := by
          unfold VertexSet.lookup_location_by_id
          rw [lookup_location_in_congr hids]
          exact hl
        refine ⟨?_, ?_, ?_⟩
        · exact { s2 with vertices :=
            s2.vertices.set ℓ ((s2.vertices.getD ℓ default).color (some "")) }
        · unfold VertexSet.uncolor_by_id VertexSet.color_by_id
          rw [hl2]
        · have hlen2 : ℓ < s2.vertices.length := by
            subst h
            simpa using hlen
          have hl3 : lookup_location_in vertex_id
              ({ s2 with vertices :=
                s2.vertices.set ℓ ((s2.vertices.getD ℓ default).color (some "")) }
                  : VertexSet).vertices = some ℓ := by
            show lookup_location_in vertex_id
              (s2.vertices.set ℓ ((s2.vertices.getD ℓ default).color (some ""))) = some ℓ
            have hkeys : (s2.vertices.set ℓ
                ((s2.vertices.getD ℓ default).color (some ""))).map Vertex.vertex_id =
                s2.vertices.map Vertex.vertex_id := by
              rw [List.map_set]
              have h2 : (s2.vertices.map Vertex.vertex_id).getD ℓ 0 =
                  ((s2.vertices.getD ℓ default).color (some "")).vertex_id := by
                rw [getD_of_lt _ _ (by simpa using hlen2), getD_of_lt _ _ hlen2]
                simp [Vertex.color]
              rw [← h2]
              exact set_getD_self _ _ _ (by simpa using hlen2)
            rw [lookup_location_in_congr hkeys]
            exact hl2
          rw [lookup_vertex_by_id_eq _ _ _ hl3]
          show Option.map Vertex.color_string
            (some ((s2.vertices.set ℓ
              ((s2.vertices.getD ℓ default).color (some ""))).getD ℓ default)) = some (some "")
          rw [getD_of_lt _ _ (by simpa using hlen2)]
          rw [List.getElem_set_self]
          rfl
  · -- construction-time vertex tag is `none`
    intro d i hi
    have hmem : ({ color_string := none, vertex_id := i, dimension := d : Vertex}) ∈
        (VertexSet.init d).vertices := by
      show _ ∈ (List.range (bits.how_many_bit_strings d)).map
        (fun j => { color_string := none, vertex_id := j, dimension := d : Vertex})
      exact List.mem_map.mpr ⟨i, List.mem_range.mpr hi, rfl⟩
    cases hl : lookup_location_in i (VertexSet.init d).vertices with
    | none =>
        exact absurd (lookup_location_in_none.mp hl _ hmem) (by simp)
    | some ℓ =>
        rw [lookup_vertex_by_id_eq _ _ _ hl]
        obtain ⟨hlen, _⟩ := lookup_location_in_some hl
        rw [getD_of_lt _ _ hlen]
        have hcolor : (VertexSet.init d).vertices[ℓ].color_string = none := by
          have hmem2 : (VertexSet.init d).vertices[ℓ] ∈ (VertexSet.init d).vertices :=
            List.getElem_mem hlen
          have hmem3 : (VertexSet.init d).vertices[ℓ] ∈
              (List.range (bits.how_many_bit_strings d)).map
                (fun j => { color_string := none, vertex_id := j, dimension := d : Vertex}) :=
            hmem2
          obtain ⟨j, _, hj⟩ := List.mem_map.mp hmem3
          rw [← hj]
        simp [hcolor]
  · -- edge round trip restores the empty tag
    intro edges u v c2 edges2 h2
    unfold EdgeSet.color_by_ids at h2
    by_cases huv : edgeMem edges (u, v) = true
    · rw [if_pos huv] at h2
      simp only [Option.some.injEq] at h2
      subst h2
      have huv2 : edgeMem (setEdgeColor edges (u, v) c2) (u, v) = true := by
        rw [edgeMem_congr (setEdgeColor_keys edges (u, v) c2)]
        exact huv
      refine ⟨setEdgeColor (setEdgeColor edges (u, v) c2) (u, v) "", ?_, ?_⟩
      · unfold EdgeSet.uncolor_by_ids EdgeSet.color_by_ids
        rw [if_pos huv2]
      · unfold EdgeSet.lookup_color_by_vertex_ids
        rw [find?_setEdgeColor_self _ _ _ huv2]
    · rw [if_neg huv] at h2
      by_cases hvu : edgeMem edges (v, u) = true
      · rw [if_pos hvu] at h2
        simp only [Option.some.injEq] at h2
        subst h2
        have hvu2 : edgeMem (setEdgeColor edges (v, u) c2) (v, u) = true := by
          rw [edgeMem_congr (setEdgeColor_keys edges (v, u) c2)]
          exact hvu
        have huv2 : edgeMem (setEdgeColor edges (v, u) c2) (u, v) = false := by
          rw [edgeMem_congr (setEdgeColor_keys edges (v, u) c2)]
          exact Bool.of_not_eq_true huv
        refine ⟨setEdgeColor (setEdgeColor edges (v, u) c2) (v, u) "", ?_, ?_⟩
        · unfold EdgeSet.uncolor_by_ids EdgeSet.color_by_ids
          rw [if_neg (by rw [huv2]; exact Bool.false_ne_true), if_pos hvu2]
        · unfold EdgeSet.lookup_color_by_vertex_ids
          have huv3 : edgeMem (setEdgeColor (setEdgeColor edges (v, u) c2) (v, u) "") (u, v)
              = false := by
            rw [edgeMem_congr (setEdgeColor_keys _ (v, u) "")]
            exact huv2
          rw [find?_key_eq_none _ _ huv3, find?_setEdgeColor_self _ _ _ hvu2]
      · rw [if_neg hvu] at h2
        exact absurd h2 (by simp)
  · -- construction-time edge tag is `""`
    intro d e he
    unfold EdgeSet.init at he
    simp only [List.mem_flatMap, List.mem_map, List.mem_filter] at he
    obtain ⟨low, _, high, _, hpair⟩ := he
    rw [← hpair]

/-- **C6, witness**: color vertex 0 of the dimension-1 cube red, then
uncolor it; the resulting tag is `some ""`. -/
theorem color_uncolor_roundtrip_witness :
    ∃ s3, ({ dimension := 1, vertices :=
        [{ color_string := some "RED", vertex_id := 0, dimension := 1 },
         { color_string := none, vertex_id := 1, dimension := 1 }] } : VertexSet).uncolor_by_id 0
        = some s3 ∧
      (s3.lookup_vertex_by_id 0).map Vertex.color_string = some (some "") :=
  (color_uncolor_roundtrip (VertexSet.init 1) 0 (some "RED") _ (by decide)).1

/-! ### C8: best-effort vertex coloring -/

theorem color_by_id_some_of_exists {s : VertexSet} {vertex_id : Nat} (c : Option String)
    (h : lookup_location_in vertex_id s.vertices ≠ none) :
    ∃ s2, s.color_by_id vertex_id c = some s2 := by
  unfold VertexSet.color_by_id VertexSet.lookup_location_by_id
  cases hl : lookup_location_in vertex_id s.vertices with
  | none => exact absurd hl h
  | some ℓ => exact ⟨_, rfl⟩

theorem color_by_id_color {s s2 : VertexSet} {vertex_id : Nat} {c : Option String}
    (h : s.color_by_id vertex_id c = some s2) :
    (s2.lookup_vertex_by_id vertex_id).map Vertex.color_string = some c := by
  obtain ⟨hids, _⟩ := color_by_id_map_id h
  unfold VertexSet.color_by_id at h
  cases hl : s.lookup_location_by_id vertex_id with
  | none => rw [hl] at h; exact absurd h (by simp)
  | some ℓ =>
      rw [hl] at h
      simp only [Option.some.injEq] at h
      obtain ⟨hlen, hid⟩ := lookup_location_in_some hl
      have hl2 : lookup_location_in vertex_id s2.vertices = some ℓ := by
        rw [lookup_location_in_congr hids]
        exact hl
      rw [lookup_vertex_by_id_eq _ _ _ hl2]
      have hlen2 : ℓ < s2.vertices.length := by
        subst h
        simpa using hlen
      rw [getD_of_lt _ _ hlen2]
      subst h
      show Option.map Vertex.color_string
        (some (s.vertices.set ℓ ((s.vertices.getD ℓ default).color c))[ℓ]) = some c
      rw [List.getElem_set_self]
      rfl

theorem color_by_id_stable {s s2 : VertexSet} {i j : Nat} {c : Option String}
    (h : s.color_by_id j c = some s2)
    (hi : (s.lookup_vertex_by_id i).map Vertex.color_string = some c) :
    (s2.lookup_vertex_by_id i).map Vertex.color_string = some c := by
  obtain ⟨hids, _⟩ := color_by_id_map_id h
  unfold VertexSet.color_by_id at h
  cases hl : s.lookup_location_by_id j with
  | none => rw [hl] at h; exact absurd h (by simp)
  | some ℓj =>
      rw [hl] at h
      simp only [Option.some.injEq] at h
      obtain ⟨hlenj, hidj⟩ := lookup_location_in_some hl
      cases hli : lookup_location_in i s.vertices with
      | none =>
          rw [VertexSet.lookup_vertex_by_id, VertexSet.lookup_location_by_id, hli] at hi
          exact absurd hi (by simp)
      | some ℓi =>
          obtain ⟨hleni, hidi⟩ := lookup_location_in_some hli
          rw [lookup_vertex_by_id_eq _ _ _ hli] at hi
          have hli2 : lookup_location_in i s2.vertices = some ℓi := by
            rw [lookup_location_in_congr hids]
            exact hli
          rw [lookup_vertex_by_id_eq _ _ _ hli2]
          have hleni2 : ℓi < s2.vertices.length := by
            subst h
            simpa using hleni
          rw [getD_of_lt _ _ hleni2]
          subst h
          by_cases hij : ℓj = ℓi
          · subst hij
            show Option.map Vertex.color_string
              (some (s.vertices.set ℓj ((s.vertices.getD ℓj default).color c))[ℓj]) = some c
            rw [List.getElem_set_self]
            rfl
          · show Option.map Vertex.color_string
              (some (s.vertices.set ℓj ((s.vertices.getD ℓj default).color c))[ℓi]) = some c
            rw [List.getElem_set_ne hij]
            rw [getD_of_lt _ _ hleni] at hi
            exact hi

theorem color_vertices_stable (c : Option String) :
    ∀ (ids : List Nat) (s : VertexSet) (i : Nat),
      (s.lookup_vertex_by_id i).map Vertex.color_string = some c →
      ((s.color_vertices_by_id_list ids c).1.lookup_vertex_by_id i).map Vertex.color_string
        = some c := by
  intro ids
  induction ids with
  | nil => intro s i h; exact h
  | cons j rest ih =>
      intro s i h
      show ((match s.color_by_id j c with
        | none => (s, true)
        | some s2 => s2.color_vertices_by_id_list rest c).1.lookup_vertex_by_id i).map
          Vertex.color_string = some c
      cases hc : s.color_by_id j c with
      | none => exact h
      | some s2 => exact ih s2 i (color_by_id_stable hc h)

/-- **C8.**  `color_vertices_by_id_list` applies `color_by_id` to each id
in list order with no rollback: when the list is `ids1 ++ bad :: rest`
with every id of `ids1` present and `bad` absent, the error flag is
raised, the final state is exactly the state after coloring just `ids1`
(so the earlier colorings remain), coloring `ids1` alone raises no
error, and every id of `ids1` indeed carries the new color tag
afterwards. -/
theorem color_vertices_best_effort (s : VertexSet) (ids1 : List Nat) (bad : Nat)
    (rest : List Nat) (c : String)
    (h1 : ∀ i ∈ ids1, lookup_location_in i s.vertices ≠ none)
    (h2 : lookup_location_in bad s.vertices = none) :
    (s.color_vertices_by_id_list (ids1 ++ bad :: rest) (some c)).2 = true
    ∧ (s.color_vertices_by_id_list (ids1 ++ bad :: rest) (some c)).1
        = (s.color_vertices_by_id_list ids1 (some c)).1
    ∧ (s.color_vertices_by_id_list ids1 (some c)).2 = false
    ∧ ∀ i ∈ ids1,
        ((s.color_vertices_by_id_list (ids1 ++ bad :: rest) (some c)).1.lookup_vertex_by_id
          i).map Vertex.color_string = some (some c) := by
  induction ids1 generalizing s with
  | nil =>
      have hfail : s.color_by_id bad (some c) = none := by
        unfold VertexSet.color_by_id VertexSet.lookup_location_by_id
        rw [h2]
      simp only [List.nil_append]
      refine ⟨?_, ?_, rfl, by simp⟩
      · show (match s.color_by_id bad (some c) with
          | none => (s, true)
          | some s2 => s2.color_vertices_by_id_list rest (some c)).2 = true
        rw [hfail]
      · show (match s.color_by_id bad (some c) with
          | none => (s, true)
          | some s2 => s2.color_vertices_by_id_list rest (some c)).1 = _
        rw [hfail]
        rfl
  | cons j tl ih =>
      obtain ⟨s2, hc⟩ := color_by_id_some_of_exists (some c) (h1 j (by simp))
      obtain ⟨hids, _⟩ := color_by_id_map_id hc
      have h1' : ∀ i ∈ tl, lookup_location_in i s2.vertices ≠ none := by
        intro i hi
        rw [lookup_location_in_congr hids]
        exact h1 i (by simp [hi])
      have h2' : lookup_location_in bad s2.vertices = none := by
        rw [lookup_location_in_congr hids]
        exact h2
      obtain ⟨g1, g2, g3, g4⟩ := ih s2 h1' h2'
      have hfold : ∀ (l : List Nat),
          s.color_vertices_by_id_list (j :: l) (some c) =
            s2.color_vertices_by_id_list l (some c) := by
        intro l
        show (match s.color_by_id j (some c) with
          | none => (s, true)
          | some t => t.color_vertices_by_id_list l (some c)) = _
        rw [hc]
      refine ⟨?_, ?_, ?_, ?_⟩
      · rw [List.cons_append, hfold]
        exact g1
      · rw [List.cons_append, hfold, hfold]
        exact g2
      · rw [hfold]
        exact g3
      · intro i hi
        rw [List.cons_append, hfold]
        rcases List.mem_cons.mp hi with hij | hitl
        · subst hij
          exact color_vertices_stable (some c) _ s2 i (color_by_id_color hc)
        · exact g4 i hitl

/-- **C8, witness**: on the dimension-1 cube, coloring `[0, 5, 1]` red
fails at the absent id `5`, leaves vertex 0 red, and does not reach
vertex 1. -/
theorem color_vertices_best_effort_witness :
    ((VertexSet.init 1).color_vertices_by_id_list ([0] ++ 5 :: [1]) (some "R")).2 = true
    ∧ ((VertexSet.init 1).color_vertices_by_id_list ([0] ++ 5 :: [1]) (some "R")).1
        = ((VertexSet.init 1).color_vertices_by_id_list [0] (some "R")).1
    ∧ ((VertexSet.init 1).color_vertices_by_id_list [0] (some "R")).2 = false
    ∧ ∀ i ∈ [0],
/- the earlier coloring survives the failure -/
        (((VertexSet.init 1).color_vertices_by_id_list ([0] ++ 5 :: [1]) (some "R")).1.lookup_vertex_by_id
          i).map Vertex.color_string = some (some "R") :=
  color_vertices_best_effort (VertexSet.init 1) [0] 5 [1] "R" (by decide) (by decide)

/-! ### C7 and C10: wildcard pattern matching -/

theorem bit_chars_getD {n d i : Nat} (h : i < d) :
    (bits.bit_chars n d).getD i '?' = (if n.testBit (d - 1 - i) then '1' else '0') := by
  unfold bits.bit_chars
  rw [getD_of_lt _ _ (by simpa using h)]
  simp

theorem matches_pattern_iff (p : List Char) (d n : Nat) :
    bits.matches_pattern p d n = true ↔
      ∀ i < d, p.getD i '?' = '*' ∨
        p.getD i '?' = (if n.testBit (d - 1 - i) then '1' else '0') := by
  unfold bits.matches_pattern
  rw [List.all_eq_true]
  constructor
  · intro h i hi
    have h2 := h i (List.mem_range.mpr hi)
    rcases (Bool.or_eq_true _ _).mp h2 with h3 | h3
    · exact Or.inl (of_decide_eq_true h3)
    · right
      rw [← bit_chars_getD hi]
      exact of_decide_eq_true h3
  · intro h i hi
    have hi2 := List.mem_range.mp hi
    apply (Bool.or_eq_true _ _).mpr
    rcases h i hi2 with h2 | h2
    · exact Or.inl (decide_eq_true h2)
    · right
      apply decide_eq_true
      rw [bit_chars_getD hi2]
      exact h2

/-- **C7, counterexample.**  For dimension 0 the empty string is the
unique length-0 pattern over the alphabet, yet `pattern_to_int_list`
raises `MalformedInput` instead of succeeding: the validation regex
`[01*]+` requires at least one character. -/
theorem c7_counterexample :
    (bits.pattern_to_int_list [] 0).toOption = none
    ∧ ([] : List Char).length = 0
    ∧ (∀ c ∈ ([] : List Char), bits.wildcard_char c) := by
  refine ⟨rfl, rfl, by simp⟩

/-- **C7, amended.**  For every dimension `d ≥ 1` (equivalently a
nonempty pattern) of matching length over `{0,1,*}`, the call succeeds
and returns exactly the values in `[0, 2^d)` whose `d`-bit big-endian
representation agrees with the pattern at every literal position; it
fails exactly on a bad alphabet, the empty pattern (the `d = 0` case),
or a length mismatch.  In particular the pattern `1**` at dimension 3
yields `{4, 5, 6, 7}`. -/
theorem pattern_to_int_list_spec (pattern : List Char) (dimension : Nat)
    (hne : pattern ≠ []) (halpha : ∀ c ∈ pattern, bits.wildcard_char c)
    (hlen : pattern.length = dimension) :
    (∃ l, bits.pattern_to_int_list pattern dimension = Except.ok l ∧
      ∀ n, n ∈ l ↔ n < 2 ^ dimension ∧ ∀ i < dimension,
        pattern.getD i '?' = '*' ∨
        pattern.getD i '?' = (if n.testBit (dimension - 1 - i) then '1' else '0'))
    ∧ (∀ (q : List Char) (d : Nat),
        ¬ (q ≠ [] ∧ ∀ c ∈ q, bits.wildcard_char c) ∨ q.length ≠ d →
        (bits.pattern_to_int_list q d).toOption = none)
    ∧ bits.pattern_to_int_list ['1', '*', '*'] 3 = Except.ok [4, 5, 6, 7] := by
  refine ⟨?_, ?_, rfl⟩
  · refine ⟨(List.range (2 ^ dimension)).filter
      (fun n => bits.matches_pattern pattern dimension n), ?_, ?_⟩
    · unfold bits.pattern_to_int_list
      rw [if_neg (not_not_intro ⟨hne, halpha⟩), if_neg (by simp [hlen])]
    · intro n
      rw [List.mem_filter]
      simp only [List.mem_range]
      exact and_congr_right (fun _ => matches_pattern_iff pattern dimension n)
  · intro q d hq
    unfold bits.pattern_to_int_list
    by_cases hv : ¬ (q ≠ [] ∧ ∀ c ∈ q, bits.wildcard_char c)
    · rw [if_pos hv]
      rfl
    · rcases hq with hq | hq
      · exact absurd hq hv
      · rw [if_neg hv, if_pos hq]
        rfl

/-- **C7, witness**: the pattern `0*` at dimension 2 succeeds and its
result holds exactly the values below 4 whose high bit is clear. -/
theorem pattern_to_int_list_spec_witness :
    ∃ l, bits.pattern_to_int_list ['0', '*'] 2 = Except.ok l ∧
      ∀ n, n ∈ l ↔ n < 2 ^ 2 ∧ ∀ i < 2,
        (['0', '*'] : List Char).getD i '?' = '*' ∨
        (['0', '*'] : List Char).getD i '?' = (if n.testBit (2 - 1 - i) then '1' else '0') :=
  (pattern_to_int_list_spec ['0', '*'] 2 (by decide) (by decide) (by decide)).1

/-- **C10.**  Every successful `pattern_to_int_list` result is sorted in
strictly increasing order and therefore duplicate-free: the code filters
the ascending enumeration `range (2 ^ dimension)`. -/
theorem pattern_to_int_list_sorted (pattern : List Char) (dimension : Nat) (l : List Nat)
    (h : bits.pattern_to_int_list pattern dimension = Except.ok l) :
    l.Sorted (· < ·) ∧ l.Nodup := by
  unfold bits.pattern_to_int_list at h
  by_cases h1 : ¬ (pattern ≠ [] ∧ ∀ c ∈ pattern, bits.wildcard_char c)
  · rw [if_pos h1] at h
    exact absurd h (by simp)
  · rw [if_neg h1] at h
    by_cases h2 : pattern.length ≠ dimension
    · rw [if_pos h2] at h
      exact absurd h (by simp)
    · rw [if_neg h2] at h
      simp only [Except.ok.injEq] at h
      subst h
      have hs : List.Sorted (· < ·) ((List.range (2 ^ dimension)).filter
          (fun n => bits.matches_pattern pattern dimension n)) :=
        List.Pairwise.filter _ (List.sorted_lt_range _)
      exact ⟨hs, hs.nodup⟩

/-- **C10, witness**: the concrete result for pattern `1**`. -/
theorem pattern_to_int_list_sorted_witness :
    ([4, 5, 6, 7] : List Nat).Sorted (· < ·) ∧ ([4, 5, 6, 7] : List Nat).Nodup :=
  pattern_to_int_list_sorted ['1', '*', '*'] 3 [4, 5, 6, 7] rfl

/-! ### C5: induced edges -/

/-- **C5, counterexample.**  On the dimension-1 cube both endpoints of
the edge `(0, 1)` appear in the id list `[1, 0]`, yet
`get_induced_edges_from_id_list` returns the empty list: the code only
tests the ordered pairs `(idList[i], idList[j])` with `i ≤ j`, and the
dict keys are stored low-id-first.  This falsifies "contains every edge
whose two endpoints both appear in idList, regardless of order". -/
theorem c5_counterexample :
    EdgeSet.get_induced_edges_from_id_list (EdgeSet.init 1) [1, 0] = []
    ∧ (0, 1) ∈ (EdgeSet.init 1).map Prod.fst
    ∧ (0 : Nat) ∈ [1, 0] ∧ (1 : Nat) ∈ [1, 0] := by decide

/-- **C5, amended.**  `get_induced_edges_from_id_list` returns exactly
the ordered pairs `(idList[i], idList[j])` with `i ≤ j` that are stored
edge keys (an edge whose endpoints appear only in high-before-low order
in `idList` is missed); on dimension 2 the list `[0, 1, 3]` yields
exactly the edges `(0, 1)` and `(1, 3)`. -/
theorem get_induced_edges_spec (edges : Edges) (ids : List Nat) (e : Nat × Nat) :
    (e ∈ EdgeSet.get_induced_edges_from_id_list edges ids ↔
      ∃ i j, i ≤ j ∧ j < ids.length ∧
        e = (ids.getD i 0, ids.getD j 0) ∧ edgeMem edges e = true)
    ∧ EdgeSet.get_induced_edges_from_id_list (EdgeSet.init 2) [0, 1, 3] = [(0, 1), (1, 3)] := by
  constructor
  · unfold EdgeSet.get_induced_edges_from_id_list
    simp only [List.mem_flatMap, List.mem_map, List.mem_filter, List.mem_range,
      List.mem_range'_1]
    constructor
    · rintro ⟨i, hi, j, ⟨⟨hij, hj⟩, hmem⟩, hpair⟩
      exact ⟨i, j, hij, by omega, hpair.symm, hpair ▸ hmem⟩
    · rintro ⟨i, j, hij, hj, hpair, hmem⟩
      refine ⟨i, by omega, j, ⟨⟨hij, by omega⟩, ?_⟩, hpair.symm⟩
      rw [hpair] at hmem
      exact hmem
  · decide

/-- **C5, witness** for the amended characterization: the pair `(1, 3)`
returned on input `[0, 1, 3]` comes from positions `1 ≤ 2` and is a
stored edge key. -/
theorem get_induced_edges_spec_witness :
    (1, 3) ∈ EdgeSet.get_induced_edges_from_id_list (EdgeSet.init 2) [0, 1, 3] :=
  ((get_induced_edges_spec (EdgeSet.init 2) [0, 1, 3] (1, 3)).1).mpr
    ⟨1, 2, by decide, by decide, by decide, by decide⟩

/-! ### C9: arithmetic facts about `bits.weight` -/

theorem weight_eq_zero : ∀ {n : Nat}, bits.weight n = 0 → n = 0 := by
  intro n
  induction n using Nat.strong_induction_on with
  | _ n ih =>
      cases n with
      | zero => intro _; rfl
      | succ m =>
          intro h
          rw [bits.weight_succ] at h
          have h1 : (m + 1) % 2 = 0 := by omega
          have h2 : bits.weight ((m + 1) / 2) = 0 := by omega
          have h3 := ih ((m + 1) / 2) (by omega) h2
          omega

theorem weight_two_mul (n : Nat) : bits.weight (2 * n) = bits.weight n := by
  cases n with
  | zero => rfl
  | succ k =>
      have h : 2 * (k + 1) = (2 * k + 1) + 1 := by omega
      rw [h, bits.weight_succ]
      have h1 : (2 * k + 1 + 1) % 2 = 0 := by omega
      have h2 : (2 * k + 1 + 1) / 2 = k + 1 := by omega
      rw [h1, h2]
      omega

theorem weight_two_pow (i : Nat) : bits.weight (2 ^ i) = 1 := by
  induction i with
  | zero => rfl
  | succ k ih =>
      rw [pow_succ, mul_comm, weight_two_mul]
      exact ih

theorem weight_two_pow_add : ∀ (d : Nat) {u : Nat}, u < 2 ^ d →
    bits.weight (2 ^ d + u) = bits.weight u + 1 := by
  intro d
  induction d with
  | zero =>
      intro u hu
      have h0 : u = 0 := by omega
      subst h0
      rfl
  | succ k ih =>
      intro u hu
      have hp : 2 ^ (k + 1) = 2 * 2 ^ k := by
        rw [pow_succ]
        ring
      cases u with
      | zero =>
          rw [Nat.add_zero, weight_two_pow]
          rfl
      | succ v =>
          obtain ⟨m, hm⟩ : ∃ m, 2 ^ (k + 1) + (v + 1) = m + 1 :=
            ⟨2 ^ (k + 1) + v, by omega⟩
          rw [hm, bits.weight_succ, ← hm]
          have h1 : (2 ^ (k + 1) + (v + 1)) % 2 = (v + 1) % 2 := by omega
          have h2 : (2 ^ (k + 1) + (v + 1)) / 2 = 2 ^ k + (v + 1) / 2 := by omega
          rw [h1, h2, @ih ((v + 1) / 2) (by omega), bits.weight_succ v]
          omega

theorem weight_le : ∀ (d : Nat) {u : Nat}, u < 2 ^ d → bits.weight u ≤ d := by
  intro d
  induction d with
  | zero =>
      intro u hu
      have h0 : u = 0 := by omega
      subst h0
      exact le_refl _
  | succ k ih =>
      intro u hu
      have hp : 2 ^ (k + 1) = 2 * 2 ^ k := by
        rw [pow_succ]
        ring
      cases u with
      | zero => exact Nat.zero_le _
      | succ v =>
          rw [bits.weight_succ]
          have h2 := @ih ((v + 1) / 2) (by omega)
          omega

theorem weight_eq_one_iff : ∀ (n : Nat), bits.weight n = 1 ↔ ∃ i, n = 2 ^ i := by
  intro n
  induction n using Nat.strong_induction_on with
  | _ n ih =>
      constructor
      · intro h
        cases n with
        | zero => exact absurd h (by decide)
        | succ m =>
            rw [bits.weight_succ] at h
            rcases Nat.mod_two_eq_zero_or_one (m + 1) with hp | hp
            · have h2 : bits.weight ((m + 1) / 2) = 1 := by omega
              obtain ⟨i, hi⟩ := (ih ((m + 1) / 2) (by omega)).mp h2
              refine ⟨i + 1, ?_⟩
              rw [pow_succ]
              omega
            · have h2 : bits.weight ((m + 1) / 2) = 0 := by omega
              have h3 := weight_eq_zero h2
              exact ⟨0, by omega⟩
      · rintro ⟨i, hi⟩
        subst hi
        exact weight_two_pow i

theorem countP_testBit : ∀ (d : Nat) {u : Nat}, u < 2 ^ d →
    (List.range d).countP (fun i => u.testBit i) = bits.weight u := by
  intro d
  induction d with
  | zero =>
      intro u hu
      have h0 : u = 0 := by omega
      subst h0
      rfl
  | succ k ih =>
      intro u hu
      have hp : 2 ^ (k + 1) = 2 * 2 ^ k := by
        rw [pow_succ]
        ring
      rw [List.range_succ_eq_map, List.countP_cons, List.countP_map]
      have hcomp : (List.range k).countP ((fun i => u.testBit i) ∘ Nat.succ)
          = (List.range k).countP (fun i => (u / 2).testBit i) := by
        apply List.countP_congr
        intro i _
        simp [Function.comp, Nat.testBit_succ]
      rw [hcomp, @ih (u / 2) (by omega)]
      cases u with
      | zero => rfl
      | succ v =>
          rw [bits.weight_succ]
          rcases Nat.mod_two_eq_zero_or_one (v + 1) with hq | hq
          · have ht : (v + 1).testBit 0 = false := by
              rw [Nat.testBit_zero]
              simp [hq]
            rw [ht, if_neg (by simp)]
            omega
          · have ht : (v + 1).testBit 0 = true := by
              rw [Nat.testBit_zero]
              simp [hq]
            rw [ht, if_pos rfl]
            omega

theorem two_pow_xor_eq_add {d x : Nat} (h : x < 2 ^ d) : 2 ^ d ^^^ x = 2 ^ d + x := by
  apply Nat.eq_of_testBit_eq
  intro i
  rw [Nat.testBit_xor]
  rcases Nat.lt_trichotomy i d with hi | rfl | hi
  · rw [Nat.testBit_two_pow_add_gt hi]
    have h2 : (2 ^ d).testBit i = false := by
      rw [Nat.testBit_two_pow]
      simp
      omega
    rw [h2]
    simp
  · rw [Nat.testBit_two_pow_add_eq]
    rw [Nat.testBit_two_pow_self]
    rw [Nat.testBit_eq_false_of_lt h]
    rfl
  · have hdi : 2 ^ (d + 1) ≤ 2 ^ i := Nat.pow_le_pow_right (by omega) (by omega)
    have hd1 : 2 ^ (d + 1) = 2 ^ d + 2 ^ d := by
      rw [pow_succ]
      ring
    have h1 : (2 ^ d + x).testBit i = false := by
      apply Nat.testBit_eq_false_of_lt
      omega
    have h2 : (2 ^ d).testBit i = false := by
      rw [Nat.testBit_two_pow]
      simp
      omega
    have h3 : x.testBit i = false := by
      apply Nat.testBit_eq_false_of_lt
      omega
    rw [h1, h2, h3]
    rfl

theorem add_two_pow_xor {k w j : Nat} (hw : w < 2 ^ k) (hj : j < 2 ^ k) :
    (2 ^ k + w) ^^^ (2 ^ k + j) = w ^^^ j := by
  rw [← two_pow_xor_eq_add hw, ← two_pow_xor_eq_add hj]
  rw [Nat.xor_assoc, ← Nat.xor_assoc w (2 ^ k) j, Nat.xor_comm w (2 ^ k),
    Nat.xor_assoc (2 ^ k) w j, ← Nat.xor_assoc, Nat.xor_self, Nat.zero_xor]

theorem xor_add_two_pow {k u j : Nat} (hu : u < 2 ^ k) (hj : j < 2 ^ k) :
    u ^^^ (2 ^ k + j) = 2 ^ k + (u ^^^ j) := by
  rw [← two_pow_xor_eq_add hj, ← Nat.xor_assoc u (2 ^ k) j, Nat.xor_comm u (2 ^ k),
    Nat.xor_assoc (2 ^ k) u j]
  exact two_pow_xor_eq_add (Nat.xor_lt_two_pow hu hj)

/-- The number of hypercube neighbors `v` of `u` with `u ≤ v < 2 ^ d` is
the number of clear bits of `u` below `d`, i.e. `d - weight u`: this is
the per-`u` contribution of the `EdgeSet.__init__` double loop. -/
theorem neighbor_count : ∀ (d : Nat) (u : Nat), u < 2 ^ d →
    ((List.range' u (2 ^ d - u)).filter
      (fun v => decide (bits.weight (u ^^^ v) = 1))).length = d - bits.weight u := by
  intro d
  induction d with
  | zero =>
      intro u hu
      have h0 : u = 0 := by omega
      subst h0
      rfl
  | succ k ih =>
      intro u hu
      have hp : 2 ^ (k + 1) = 2 ^ k + 2 ^ k := by
        rw [pow_succ]
        ring
      by_cases hlow : u < 2 ^ k
      · have harith : 2 ^ (k + 1) - u = 2 ^ k + (2 ^ k - u) := by omega
        have hmid : u + (2 ^ k - u) = 2 ^ k := by omega
        rw [harith, ← List.range'_append_1, hmid, List.filter_append, List.length_append]
        have hsecond : ((List.range' (2 ^ k) (2 ^ k)).filter
            (fun v => decide (bits.weight (u ^^^ v) = 1))).length = 1 := by
          have hcong : ∀ v ∈ List.range' (2 ^ k) (2 ^ k),
              (decide (bits.weight (u ^^^ v) = 1)) = (v == 2 ^ k + u) := by
            intro v hv
            rw [List.mem_range'_1] at hv
            obtain ⟨j, hj, rfl⟩ : ∃ j, j < 2 ^ k ∧ v = 2 ^ k + j :=
              ⟨v - 2 ^ k, by omega, by omega⟩
            rw [Bool.eq_iff_iff]
            simp only [decide_eq_true_eq, beq_iff_eq]
            rw [xor_add_two_pow hlow hj,
              weight_two_pow_add k (Nat.xor_lt_two_pow hlow hj)]
            constructor
            · intro h1
              have h2 : bits.weight (u ^^^ j) = 0 := by omega
              have h3 := Nat.xor_eq_zero.mp (weight_eq_zero h2)
              omega
            · intro h1
              have hju : j = u := by omega
              subst hju
              rw [Nat.xor_self]
              rfl
          rw [List.filter_congr hcong]
          have hmem : 2 ^ k + u ∈ List.range' (2 ^ k) (2 ^ k) := by
            rw [List.mem_range'_1]
            omega
          have hnd := List.nodup_range' (2 ^ k) (2 ^ k)
          rw [← List.countP_eq_length_filter]
          exact List.count_eq_one_of_mem hnd hmem
        rw [hsecond, ih u hlow]
        have hle := weight_le k hlow
        omega
      · obtain ⟨w, hw, rfl⟩ : ∃ w, w < 2 ^ k ∧ u = 2 ^ k + w :=
          ⟨u - 2 ^ k, by omega, by omega⟩
        have hlen : 2 ^ (k + 1) - (2 ^ k + w) = 2 ^ k - w := by omega
        rw [hlen]
        have hmap : List.range' (2 ^ k + w) (2 ^ k - w)
            = (List.range' w (2 ^ k - w)).map (fun j => 2 ^ k + j) := by
          rw [List.range'_eq_map_range, List.range'_eq_map_range, List.map_map]
          apply List.map_congr_left
          intro a _
          simp only [Function.comp]
          omega
        rw [hmap, List.filter_map, List.length_map]
        have hcong : ∀ j ∈ List.range' w (2 ^ k - w),
            ((fun v => decide (bits.weight ((2 ^ k + w) ^^^ v) = 1)) ∘ (fun j => 2 ^ k + j)) j
              = (fun v => decide (bits.weight (w ^^^ v) = 1)) j := by
          intro j hj
          rw [List.mem_range'_1] at hj
          simp only [Function.comp]
          rw [add_two_pow_xor hw (by omega)]
        rw [List.filter_congr hcong, ih w hw]
        have hle := weight_le k hw
        rw [weight_two_pow_add k hw]
        omega

theorem sum_map_add_one (l : List Nat) (g : Nat → Nat) :
    (l.map (fun u => g u + 1)).sum = (l.map g).sum + l.length := by
  induction l with
  | nil => rfl
  | cons a t ih =>
      simp only [List.map_cons, List.sum_cons, List.length_cons, ih]
      omega

/-- The total `Σ_{u < 2^d} (d - weight u) = d * 2^(d-1)`. -/
theorem sum_d_sub_weight : ∀ (d : Nat),
    ((List.range (2 ^ d)).map (fun u => d - bits.weight u)).sum = d * 2 ^ (d - 1) := by
  intro d
  induction d with
  | zero => rfl
  | succ k ih =>
      have hp : 2 ^ (k + 1) = 2 ^ k + 2 ^ k := by
        rw [pow_succ]
        ring
      rw [hp, List.range_add, List.map_append, List.sum_append, List.map_map]
      have hfirst : ((List.range (2 ^ k)).map (fun u => k + 1 - bits.weight u)).sum
          = ((List.range (2 ^ k)).map (fun u => k - bits.weight u)).sum + 2 ^ k := by
        have hcong : ∀ u ∈ List.range (2 ^ k),
            k + 1 - bits.weight u = (k - bits.weight u) + 1 := by
          intro u hu
          have := weight_le k (List.mem_range.mp hu)
          omega
        rw [List.map_congr_left hcong, sum_map_add_one]
        rw [List.length_range]
      have hsecondcong : ∀ u ∈ List.range (2 ^ k),
          ((fun u => k + 1 - bits.weight u) ∘ (fun x => 2 ^ k + x)) u
            = k - bits.weight u := by
        intro u hu
        simp only [Function.comp]
        rw [weight_two_pow_add k (List.mem_range.mp hu)]
        have := weight_le k (List.mem_range.mp hu)
        omega
      rw [List.map_congr_left hsecondcong, hfirst, ih]
      have hgoal : k + 1 - 1 = k := by omega
      rw [hgoal]
      cases k with
      | zero => rfl
      | succ m =>
          have h2 : m + 1 - 1 = m := by omega
          rw [h2, pow_succ]
          ring

/-- **C9.**  The edge set constructed for dimension `d` has exactly
`d * 2^(d-1)` entries; its keys are exactly the unordered id pairs
`(u, v)` with `u ≤ v < 2^d` whose XOR has weight 1; and every entry is
initialized to the uncolored tag `""`. -/
theorem edge_set_init_spec (dimension : Nat) :
    (EdgeSet.init dimension).length = dimension * 2 ^ (dimension - 1)
    ∧ (∀ u v : Nat, ((u, v) ∈ (EdgeSet.init dimension).map Prod.fst ↔
        u ≤ v ∧ v < 2 ^ dimension ∧ bits.weight (u ^^^ v) = 1))
    ∧ (∀ e ∈ EdgeSet.init dimension, e.2 = "") := by
  refine ⟨?_, ?_, ?_⟩
  · have h1 : EdgeSet.init dimension = List.flatten ((List.range (2 ^ dimension)).map
        (fun low_index => ((List.range' low_index (2 ^ dimension - low_index)).filter
          (fun high_index => decide (bits.weight (low_index ^^^ high_index) = 1))).map
            (fun high_index => ((low_index, high_index), "")))) := rfl
    rw [h1, List.length_flatten, List.map_map]
    have h2 : ∀ u ∈ List.range (2 ^ dimension),
        (List.length ∘ fun low_index =>
          ((List.range' low_index (2 ^ dimension - low_index)).filter
            (fun high_index => decide (bits.weight (low_index ^^^ high_index) = 1))).map
              (fun high_index => ((low_index, high_index), ""))) u
          = dimension - bits.weight u := by
      intro u hu
      simp only [Function.comp, List.length_map]
      exact neighbor_count dimension u (List.mem_range.mp hu)
    rw [List.map_congr_left h2, sum_d_sub_weight]
  · intro u v
    unfold EdgeSet.init bits.how_many_bit_strings
    simp only [List.mem_map, List.mem_flatMap, List.mem_filter, List.mem_range,
      List.mem_range'_1, decide_eq_true_eq]
    constructor
    · rintro ⟨e, ⟨low, hlow, high, ⟨⟨hge, hlt⟩, hw⟩, rfl⟩, hfst⟩
      simp only [Prod.mk.injEq] at hfst
      obtain ⟨rfl, rfl⟩ := hfst
      exact ⟨hge, by omega, hw⟩
    · rintro ⟨huv, hv, hw⟩
      exact ⟨((u, v), ""), ⟨u, by omega, v, ⟨⟨huv, by omega⟩, hw⟩, rfl⟩, rfl⟩
  · intro e he
    unfold EdgeSet.init at he
    simp only [List.mem_flatMap, List.mem_map, List.mem_filter] at he
    obtain ⟨low, _, high, _, hpair⟩ := he
    rw [← hpair]

/-- **C9, witness**: dimension 3 has `3 * 2^2 = 12` edges. -/
theorem edge_set_init_spec_witness :
    (EdgeSet.init 3).length = 3 * 2 ^ (3 - 1) :=
  (edge_set_init_spec 3).1

/-! ### Relocation machinery: lemmas about `applyWrites` -/

theorem applyWrites_length : ∀ (ws : List (Nat × Vertex)) (vs : List Vertex),
    (applyWrites vs ws).length = vs.length := by
  intro ws
  induction ws with
  | nil => intro vs; rfl
  | cons w t ih =>
      intro vs
      show (applyWrites (vs.set w.1 w.2) t).length = _
      rw [ih, List.length_set]

theorem applyWrites_getD_of_notin : ∀ (ws : List (Nat × Vertex)) (vs : List Vertex) (j : Nat),
    (∀ w ∈ ws, w.1 ≠ j) →
    (applyWrites vs ws).getD j default = vs.getD j default := by
  intro ws
  induction ws with
  | nil => intro vs j _; rfl
  | cons w t ih =>
      intro vs j hne
      show (applyWrites (vs.set w.1 w.2) t).getD j default = _
      rw [ih _ _ (fun x hx => hne x (by simp [hx]))]
      by_cases hj : j < vs.length
      · rw [getD_of_lt _ _ (by simpa using hj), getD_of_lt _ _ hj]
        exact List.getElem_set_ne (hne w (by simp)) _
      · rw [List.getD_eq_getElem?_getD, List.getD_eq_getElem?_getD,
          List.getElem?_eq_none (by simpa using hj), List.getElem?_eq_none (by omega)]

theorem applyWrites_append : ∀ (ws1 ws2 : List (Nat × Vertex)) (vs : List Vertex),
    applyWrites vs (ws1 ++ ws2) = applyWrites (applyWrites vs ws1) ws2 := by
  intro ws1
  induction ws1 with
  | nil => intro ws2 vs; rfl
  | cons w t ih => intro ws2 vs; exact ih ws2 (vs.set w.1 w.2)

theorem applyWrites_getD_last (ws1 : List (Nat × Vertex)) (j : Nat) (v : Vertex)
    (ws2 : List (Nat × Vertex)) (vs : List Vertex) (hj : j < vs.length)
    (h2 : ∀ w ∈ ws2, w.1 ≠ j) :
    (applyWrites vs (ws1 ++ (j, v) :: ws2)).getD j default = v := by
  rw [applyWrites_append]
  show (applyWrites ((applyWrites vs ws1).set j v) ws2).getD j default = v
  rw [applyWrites_getD_of_notin ws2 _ j h2]
  have hlen : j < ((applyWrites vs ws1).set j v).length := by
    rw [List.length_set, applyWrites_length]
    exact hj
  rw [getD_of_lt _ _ hlen]
  exact List.getElem_set_self hlen

theorem set_cons_multiset : ∀ (l : List Vertex) (j : Nat) (v : Vertex), j < l.length →
    (↑(l.set j v) : Multiset Vertex) + {l.getD j default} = ↑l + {v} := by
  intro l
  induction l with
  | nil => intro j v h; simp at h
  | cons a t ih =>
      intro j v h
      cases j with
      | zero =>
          show (↑(v :: t) : Multiset Vertex) + {a} = ↑(a :: t) + {v}
          rw [← Multiset.cons_coe, ← Multiset.cons_coe, add_comm, add_comm _ ({v} : Multiset Vertex),
            Multiset.singleton_add, Multiset.singleton_add]
          exact Multiset.cons_swap a v ↑t
      | succ j0 =>
          have h0 : j0 < t.length := by simpa using h
          show (↑(a :: t.set j0 v) : Multiset Vertex) + {t.getD j0 default} = ↑(a :: t) + {v}
          rw [← Multiset.cons_coe, ← Multiset.cons_coe, Multiset.cons_add, Multiset.cons_add,
            ih j0 v h0]

theorem applyWrites_multiset : ∀ (ws : List (Nat × Vertex)) (vs : List Vertex),
    (ws.map Prod.fst).Nodup → (∀ w ∈ ws, w.1 < vs.length) →
    (↑(applyWrites vs ws) : Multiset Vertex) + ↑(ws.map (fun w => vs.getD w.1 default))
      = ↑vs + ↑(ws.map Prod.snd) := by
  intro ws
  induction ws with
  | nil => intro vs _ _; rfl
  | cons w t ih =>
      intro vs hnd hlt
      show (↑(applyWrites (vs.set w.1 w.2) t) : Multiset Vertex)
        + ↑((w :: t).map (fun x => vs.getD x.1 default)) = ↑vs + ↑((w :: t).map Prod.snd)
      rw [List.map_cons, List.map_cons, ← Multiset.cons_coe, ← Multiset.cons_coe]
      simp only [List.map_cons, List.nodup_cons] at hnd
      have hnd2 : (t.map Prod.fst).Nodup := hnd.2
      have hmem : w.1 ∉ t.map Prod.fst := hnd.1
      have hlt2 : ∀ x ∈ t, x.1 < (vs.set w.1 w.2).length := by
        rw [List.length_set]
        intro x hx
        exact hlt x (by simp [hx])
      have ihh := ih (vs.set w.1 w.2) hnd2 hlt2
      have hgets : t.map (fun x => (vs.set w.1 w.2).getD x.1 default)
          = t.map (fun x => vs.getD x.1 default) := by
        apply List.map_congr_left
        intro x hx
        have hne : w.1 ≠ x.1 := by
          intro hh
          exact hmem (hh ▸ List.mem_map_of_mem Prod.fst hx)
        have hxlt : x.1 < vs.length := hlt x (by simp [hx])
        rw [getD_of_lt _ _ (by simpa using hxlt), getD_of_lt _ _ hxlt]
        exact List.getElem_set_ne hne _
      rw [hgets] at ihh
      have hset := set_cons_multiset vs w.1 w.2 (hlt w (by simp))
      rw [← Multiset.singleton_add, ← Multiset.singleton_add]
      calc (↑(applyWrites (vs.set w.1 w.2) t) : Multiset Vertex)
          + ({vs.getD w.1 default} + ↑(t.map (fun x => vs.getD x.1 default)))
          = (↑(applyWrites (vs.set w.1 w.2) t)
            + ↑(t.map (fun x => vs.getD x.1 default))) + {vs.getD w.1 default} := by
            rw [add_comm ({vs.getD w.1 default} : Multiset Vertex), add_assoc]
        _ = (↑(vs.set w.1 w.2) + ↑(t.map Prod.snd)) + {vs.getD w.1 default} := by rw [ihh]
        _ = (↑(vs.set w.1 w.2) + {vs.getD w.1 default}) + ↑(t.map Prod.snd) := by
            rw [add_assoc, add_comm (↑(t.map Prod.snd) : Multiset Vertex), ← add_assoc]
        _ = (↑vs + {w.2}) + ↑(t.map Prod.snd) := by rw [hset]
        _ = ↑vs + ({w.2} + ↑(t.map Prod.snd)) := by rw [add_assoc]

theorem getD_map_range (vs : List Vertex) :
    (List.range vs.length).map (fun ℓ => vs.getD ℓ default) = vs := by
  apply List.ext_getElem
  · simp
  · intro i h1 h2
    simp only [List.getElem_map, List.getElem_range]
    rw [getD_of_lt _ _ h2]

theorem applyWrites_perm (vs : List Vertex) (ws : List (Nat × Vertex))
    (h : (ws.map Prod.fst).Perm (List.range vs.length)) :
    (applyWrites vs ws).Perm (ws.map Prod.snd) := by
  have hnd : (ws.map Prod.fst).Nodup := h.nodup_iff.mpr (List.nodup_range _)
  have hlt : ∀ w ∈ ws, w.1 < vs.length := by
    intro w hw
    have h1 : w.1 ∈ ws.map Prod.fst := List.mem_map_of_mem _ hw
    have h2 := h.mem_iff.mp h1
    simpa using h2
  have hmain := applyWrites_multiset ws vs hnd hlt
  have hperm2 : (ws.map (fun w => vs.getD w.1 default)).Perm vs := by
    have h3 : ws.map (fun w => vs.getD w.1 default)
        = (ws.map Prod.fst).map (fun ℓ => vs.getD ℓ default) := by
      rw [List.map_map]
      rfl
    rw [h3]
    have h4 := h.map (fun ℓ => vs.getD ℓ default)
    rw [getD_map_range] at h4
    exact h4
  have hX : (↑(ws.map (fun w => vs.getD w.1 default)) : Multiset Vertex) = ↑vs :=
    Multiset.coe_eq_coe.mpr hperm2
  rw [hX] at hmain
  apply Multiset.coe_eq_coe.mp
  have hcomm : (↑vs : Multiset Vertex) + ↑(ws.map Prod.snd)
      = ↑(ws.map Prod.snd) + ↑vs := add_comm _ _
  rw [hcomm] at hmain
  exact add_right_cancel hmain

theorem map_range_perm_of_inj (N : Nat) (f : Nat → Nat)
    (hf : ∀ ℓ, ℓ < N → f ℓ < N)
    (hinj : ∀ a, a < N → ∀ b, b < N → f a = f b → a = b) :
    ((List.range N).map f).Perm (List.range N) := by
  have hnd : ((List.range N).map f).Nodup := by
    apply List.Nodup.map_on
    · intro a ha b hb hab
      exact hinj a (List.mem_range.mp ha) b (List.mem_range.mp hb) hab
    · exact List.nodup_range N
  have hsub : (List.range N).map f ⊆ List.range N := by
    intro x hx
    obtain ⟨a, ha, rfl⟩ := List.mem_map.mp hx
    exact List.mem_range.mpr (hf a (List.mem_range.mp ha))
  have hsp := List.subperm_of_subset hnd hsub
  apply hsp.perm_of_length_le
  simp

theorem map_to_locations_perm (s : VertexSet) (f : Nat → Nat)
    (hperm : ((List.range s.vertices.length).map f).Perm (List.range s.vertices.length)) :
    (s.map_to_locations f).vertices.Perm s.vertices := by
  show (applyWrites s.vertices ((List.range s.vertices.length).map
    (fun ℓ => (f ℓ, s.vertices.getD ℓ default)))).Perm _
  have h1 : ((List.range s.vertices.length).map
      (fun ℓ => (f ℓ, s.vertices.getD ℓ default))).map Prod.fst
      = (List.range s.vertices.length).map f := by
    rw [List.map_map]
    rfl
  have h2 : ((List.range s.vertices.length).map
      (fun ℓ => (f ℓ, s.vertices.getD ℓ default))).map Prod.snd
      = s.vertices := by
    rw [List.map_map]
    exact getD_map_range s.vertices
  have h3 := applyWrites_perm s.vertices ((List.range s.vertices.length).map
    (fun ℓ => (f ℓ, s.vertices.getD ℓ default))) (by rw [h1]; exact hperm)
  rw [h2] at h3
  exact h3

theorem range_split {N ℓ : Nat} (h : ℓ < N) :
    List.range N = List.range ℓ ++ ℓ :: List.range' (ℓ + 1) (N - ℓ - 1) := by
  rw [List.range_eq_range', List.range_eq_range']
  have h1 : List.range' 0 ℓ ++ List.range' (0 + ℓ) (N - ℓ) = List.range' 0 ((N - ℓ) + ℓ) :=
    List.range'_append_1 0 ℓ (N - ℓ)
  have h2 : (N - ℓ) + ℓ = N := by omega
  rw [h2] at h1
  have h4 : List.range' ℓ (N - ℓ) = ℓ :: List.range' (ℓ + 1) (N - ℓ - 1) := by
    obtain ⟨m, hm⟩ : ∃ m, N - ℓ - 1 = m := ⟨_, rfl⟩
    rw [hm, show N - ℓ = m + 1 by omega, List.range'_succ]
  rw [← h1, Nat.zero_add, h4]

theorem map_to_locations_getD (s : VertexSet) (f : Nat → Nat)
    (hinj : ∀ a, a < s.vertices.length → ∀ b, b < s.vertices.length → f a = f b → a = b)
    (ℓ : Nat) (hℓ : ℓ < s.vertices.length) (hfl : f ℓ < s.vertices.length) :
    (s.map_to_locations f).vertices.getD (f ℓ) default = s.vertices.getD ℓ default := by
  show (applyWrites s.vertices ((List.range s.vertices.length).map
    (fun x => (f x, s.vertices.getD x default)))).getD (f ℓ) default = _
  rw [range_split hℓ, List.map_append, List.map_cons]
  apply applyWrites_getD_last _ _ _ _ _ hfl
  intro w hw
  obtain ⟨x, hx, rfl⟩ := List.mem_map.mp hw
  rw [List.mem_range'_1] at hx
  intro heq
  have hxlt : x < s.vertices.length := by omega
  have := hinj x hxlt ℓ hℓ heq
  omega

/-! ### Recoloring machinery: the loop of `map_to_locations_not_colors` -/

theorem map_id_set_color (vs : List Vertex) (k : Nat) (c : Option String)
    (hk : k < vs.length) :
    (vs.set k ((vs.getD k default).color c)).map Vertex.vertex_id
      = vs.map Vertex.vertex_id := by
  rw [List.map_set]
  have h2 : (vs.map Vertex.vertex_id).getD k 0 = ((vs.getD k default).color c).vertex_id := by
    rw [getD_of_lt _ _ (by simpa using hk), getD_of_lt _ _ hk]
    simp [Vertex.color]
  rw [← h2]
  exact set_getD_self _ _ _ (by simpa using hk)

theorem color_by_location_nodup (s : VertexSet) (k : Nat) (c : Option String)
    (hnd : (s.vertices.map Vertex.vertex_id).Nodup) (hk : k < s.vertices.length) :
    s.color_by_location (k : Int) c =
      some { s with vertices := s.vertices.set k ((s.vertices.getD k default).color c) } := by
  have hlook : s.lookup_id_by_location (k : Int)
      = some (s.vertices.getD k default).vertex_id := by
    unfold VertexSet.lookup_id_by_location VertexSet.lookup_vertex_by_location
    rw [if_pos (by omega)]
    rw [show ((k : Int).toNat) = k by omega]
    rw [if_pos hk]
    rfl
  unfold VertexSet.color_by_location
  rw [hlook]
  show s.color_by_id (s.vertices.getD k default).vertex_id c = _
  unfold VertexSet.color_by_id VertexSet.lookup_location_by_id
  rw [lookup_location_in_nodup hnd hk]

theorem recolorLoop_getD (col : Nat → Option String) :
    ∀ (n : Nat) (k : Nat) (s : VertexSet), k + n ≤ s.vertices.length →
      (s.vertices.map Vertex.vertex_id).Nodup →
      ∀ j, j < s.vertices.length →
      (recolorLoop s ((List.range' k n).map (fun ℓ => (ℓ, col ℓ)))).vertices.getD j default
        = if k ≤ j ∧ j < k + n
          then { s.vertices.getD j default with color_string := col j }
          else s.vertices.getD j default := by
  intro n
  induction n with
  | zero =>
      intro k s _ _ j hj
      rw [if_neg (by omega)]
      rfl
  | succ n0 ih =>
      intro k s hkn hnd j hj
      have hk : k < s.vertices.length := by omega
      have hstep := color_by_location_nodup s k (col k) hnd hk
      rw [List.range'_succ, List.map_cons]
      show (match s.color_by_location (k : Int) (col k) with
        | none => s
        | some s2 =>
            recolorLoop s2 ((List.range' (k + 1) n0).map (fun ℓ => (ℓ, col ℓ)))).vertices.getD
          j default = _
      rw [hstep]
      have hlen2 : k + 1 + n0 ≤ ({ s with vertices := s.vertices.set k ((s.vertices.getD k default).color (col k)) } : VertexSet).vertices.length := by
        show k + 1 + n0 ≤ (s.vertices.set k ((s.vertices.getD k default).color (col k))).length
        rw [List.length_set]
        omega
      have hnd2 : (({ s with vertices := s.vertices.set k ((s.vertices.getD k default).color (col k)) } : VertexSet).vertices.map Vertex.vertex_id).Nodup := by
        show ((s.vertices.set k ((s.vertices.getD k default).color (col k))).map Vertex.vertex_id).Nodup
        rw [map_id_set_color _ _ _ hk]
        exact hnd
      have hj2 : j < ({ s with vertices := s.vertices.set k ((s.vertices.getD k default).color (col k)) } : VertexSet).vertices.length := by
        show j < (s.vertices.set k ((s.vertices.getD k default).color (col k))).length
        rw [List.length_set]
        exact hj
      rw [ih (k + 1) _ hlen2 hnd2 j hj2]
      by_cases hjk : j = k
      · subst hjk
        rw [if_neg (by omega), if_pos (by omega)]
        show (s.vertices.set j ((s.vertices.getD j default).color (col j))).getD j default = _
        rw [getD_of_lt _ _ (by simpa using hj), List.getElem_set_self]
        rfl
      · have hget : ({ s with vertices := s.vertices.set k ((s.vertices.getD k default).color (col k)) } : VertexSet).vertices.getD j default = s.vertices.getD j default := by
          show (s.vertices.set k ((s.vertices.getD k default).color (col k))).getD j default = _
          rw [getD_of_lt _ _ (by simpa using hj), getD_of_lt _ _ hj]
          exact List.getElem_set_ne (by omega) _
        by_cases hcond : k ≤ j ∧ j < k + (n0 + 1)
        · rw [if_pos (by omega), if_pos hcond, hget]
        · rw [if_neg (by omega), if_neg hcond, hget]

theorem color_by_location_map_id {s s2 : VertexSet} {loc : Int} {c : Option String}
    (h : s.color_by_location loc c = some s2) :
    s2.vertices.map Vertex.vertex_id = s.vertices.map Vertex.vertex_id
    ∧ s2.dimension = s.dimension := by
  unfold VertexSet.color_by_location at h
  cases hl : s.lookup_id_by_location loc with
  | none => rw [hl] at h; exact absurd h (by simp)
  | some i =>
      rw [hl] at h
      exact color_by_id_map_id h

theorem recolorLoop_map_id : ∀ (pairs : List (Nat × Option String)) (s : VertexSet),
    (recolorLoop s pairs).vertices.map Vertex.vertex_id = s.vertices.map Vertex.vertex_id
    ∧ (recolorLoop s pairs).dimension = s.dimension := by
  intro pairs
  induction pairs with
  | nil => intro s; exact ⟨rfl, rfl⟩
  | cons p t ih =>
      intro s
      obtain ⟨ploc, pc⟩ := p
      show (match s.color_by_location (ploc : Int) pc with
          | none => s
          | some s2 => recolorLoop s2 t).vertices.map Vertex.vertex_id
            = s.vertices.map Vertex.vertex_id
        ∧ (match s.color_by_location (ploc : Int) pc with
          | none => s
          | some s2 => recolorLoop s2 t).dimension = s.dimension
      cases hc : s.color_by_location (ploc : Int) pc with
      | none => exact ⟨rfl, rfl⟩
      | some s2 =>
          obtain ⟨h1, h2⟩ := color_by_location_map_id hc
          obtain ⟨g1, g2⟩ := ih s2
          exact ⟨g1.trans h1, g2.trans h2⟩

/-! ### C2: reflection is an involution -/

theorem truncate_lt (bit_mask : Int) (d : Nat) :
    bits.truncate_within_dimension bit_mask d < 2 ^ d := by
  unfold bits.truncate_within_dimension
  have hc : ((2 ^ d : Nat) : Int) = (2 : Int) ^ d := by
    push_cast
    ring
  have h1 : (0 : Int) < (2 : Int) ^ d := by positivity
  have h2 : 0 ≤ bit_mask % (2 : Int) ^ d := Int.emod_nonneg bit_mask (by omega)
  have h3 : bit_mask % (2 : Int) ^ d < (2 : Int) ^ d := Int.emod_lt_of_pos bit_mask h1
  omega

theorem xor_xor_cancel (a t : Nat) : (a ^^^ t) ^^^ t = a := by
  rw [Nat.xor_assoc, Nat.xor_self, Nat.xor_zero]

theorem map_to_locations_length (s : VertexSet) (f : Nat → Nat) :
    (s.map_to_locations f).vertices.length = s.vertices.length := by
  show (applyWrites s.vertices _).length = _
  exact applyWrites_length _ _

/-- Pointwise characterization of a single `reflect` on a vertex set
satisfying the bijection invariant: the vertex that ends up at location
`j` is the one that was at `j XXX mask`, and with `preserve_colors` the
color at `j` is pinned. -/
theorem reflect_spec (s : VertexSet) (bit_mask : Int) (preserve_colors : Bool)
    (hlen : s.vertices.length = 2 ^ s.dimension)
    (hnd : (s.vertices.map Vertex.vertex_id).Nodup) :
    (s.reflect bit_mask preserve_colors).dimension = s.dimension
    ∧ (s.reflect bit_mask preserve_colors).vertices.length = s.vertices.length
    ∧ ((s.reflect bit_mask preserve_colors).vertices.map Vertex.vertex_id).Nodup
    ∧ ∀ j, j < s.vertices.length →
        (s.reflect bit_mask preserve_colors).vertices.getD j default
          = (if preserve_colors
             then { s.vertices.getD (j ^^^ bits.truncate_within_dimension bit_mask s.dimension) default with color_string := (s.vertices.getD j default).color_string }
             else s.vertices.getD (j ^^^ bits.truncate_within_dimension bit_mask s.dimension) default) := by
  have ht : bits.truncate_within_dimension bit_mask s.dimension < 2 ^ s.dimension :=
    truncate_lt bit_mask s.dimension
  have hmaps : ∀ ℓ, ℓ < s.vertices.length →
      ℓ ^^^ bits.truncate_within_dimension bit_mask s.dimension < s.vertices.length := by
    intro ℓ hℓ
    rw [hlen] at hℓ ⊢
    exact Nat.xor_lt_two_pow hℓ ht
  have hinj : ∀ a, a < s.vertices.length → ∀ b, b < s.vertices.length →
      a ^^^ bits.truncate_within_dimension bit_mask s.dimension
        = b ^^^ bits.truncate_within_dimension bit_mask s.dimension → a = b := by
    intro a _ b _ hab
    have := congrArg (fun x => x ^^^ bits.truncate_within_dimension bit_mask s.dimension) hab
    simpa [xor_xor_cancel] using this
  have hperm0 : ((List.range s.vertices.length).map
      (fun ℓ => ℓ ^^^ bits.truncate_within_dimension bit_mask s.dimension)).Perm
        (List.range s.vertices.length) :=
    map_range_perm_of_inj s.vertices.length _ hmaps hinj
  have hmoved_perm : (s.map_to_locations
      (fun ℓ => ℓ ^^^ bits.truncate_within_dimension bit_mask s.dimension)).vertices.Perm
        s.vertices := map_to_locations_perm s _ hperm0
  have hmoved_getD : ∀ j, j < s.vertices.length →
      (s.map_to_locations
        (fun ℓ => ℓ ^^^ bits.truncate_within_dimension bit_mask s.dimension)).vertices.getD
          j default
        = s.vertices.getD (j ^^^ bits.truncate_within_dimension bit_mask s.dimension) default := by
    intro j hj
    have hg := map_to_locations_getD s
      (fun ℓ => ℓ ^^^ bits.truncate_within_dimension bit_mask s.dimension) hinj
      (j ^^^ bits.truncate_within_dimension bit_mask s.dimension) (hmaps j hj)
      (by simp only [xor_xor_cancel]; exact hj)
    simp only [xor_xor_cancel] at hg
    exact hg
  cases preserve_colors with
  | false =>
      refine ⟨rfl, map_to_locations_length s _, ?_, ?_⟩
      · exact (hmoved_perm.map Vertex.vertex_id).nodup_iff.mpr hnd
      · intro j hj
        rw [if_neg (by simp)]
        exact hmoved_getD j hj
  | true =>
      have hpairs := recolorLoop_getD
        (fun ℓ => (s.vertices.getD ℓ default).color_string) s.vertices.length 0
        (s.map_to_locations
          (fun ℓ => ℓ ^^^ bits.truncate_within_dimension bit_mask s.dimension))
        (by rw [map_to_locations_length]; omega)
        ((hmoved_perm.map Vertex.vertex_id).nodup_iff.mpr hnd)
      have hshape : (s.reflect bit_mask true).vertices
          = (recolorLoop (s.map_to_locations
              (fun ℓ => ℓ ^^^ bits.truncate_within_dimension bit_mask s.dimension))
            ((List.range' 0 s.vertices.length).map
              (fun ℓ => (ℓ, (s.vertices.getD ℓ default).color_string)))).vertices := by
        show (recolorLoop (s.map_to_locations _)
          ((List.range s.vertices.length).map
            (fun ℓ => (ℓ, (s.vertices.getD ℓ default).color_string)))).vertices = _
        rw [List.range_eq_range']
      have hids : (s.reflect bit_mask true).vertices.map Vertex.vertex_id
          = (s.map_to_locations
              (fun ℓ => ℓ ^^^ bits.truncate_within_dimension bit_mask s.dimension)).vertices.map
            Vertex.vertex_id := by
        rw [hshape]
        exact (recolorLoop_map_id _ _).1
      have hlenr : (s.reflect bit_mask true).vertices.length = s.vertices.length := by
        have h1 := congrArg List.length hids
        simp only [List.length_map] at h1
        rw [h1, map_to_locations_length]
      refine ⟨?_, hlenr, ?_, ?_⟩
      · show (recolorLoop (s.map_to_locations
            (fun ℓ => ℓ ^^^ bits.truncate_within_dimension bit_mask s.dimension))
          ((List.range s.vertices.length).map
            (fun ℓ => (ℓ, (s.vertices.getD ℓ default).color_string)))).dimension = s.dimension
        exact (recolorLoop_map_id _ _).2
      · rw [hids]
        exact (hmoved_perm.map Vertex.vertex_id).nodup_iff.mpr hnd
      · intro j hj
        have hjm : j < (s.map_to_locations
            (fun ℓ => ℓ ^^^ bits.truncate_within_dimension bit_mask s.dimension)).vertices.length := by
          rw [map_to_locations_length]
          exact hj
        rw [hshape, hpairs j hjm, if_pos ⟨Nat.zero_le _, by omega⟩, if_pos rfl,
          hmoved_getD j hj]

/-- **C2.**  Applying `reflect` twice with the same mask—any integer
mask, either `preserve_colors` value—restores the entire vertex
arrangement (locations and colors) of any vertex set satisfying the
cube invariant. -/
theorem reflect_involution (s : VertexSet) (bit_mask : Int) (preserve_colors : Bool)
    (hlen : s.vertices.length = 2 ^ s.dimension)
    (hnd : (s.vertices.map Vertex.vertex_id).Nodup) :
    (s.reflect bit_mask preserve_colors).reflect bit_mask preserve_colors = s := by
  obtain ⟨hd1, hl1, hn1, hg1⟩ := reflect_spec s bit_mask preserve_colors hlen hnd
  have hlen1 : (s.reflect bit_mask preserve_colors).vertices.length
      = 2 ^ (s.reflect bit_mask preserve_colors).dimension := by
    rw [hd1, hl1, hlen]
  obtain ⟨hd2, hl2, hn2, hg2⟩ :=
    reflect_spec (s.reflect bit_mask preserve_colors) bit_mask preserve_colors hlen1 hn1
  have hvert : ((s.reflect bit_mask preserve_colors).reflect bit_mask preserve_colors).vertices
      = s.vertices := by
    apply List.ext_getElem
    · rw [hl2, hl1]
    · intro i hi1 hi2
      rw [← getD_of_lt _ default hi1, ← getD_of_lt _ default hi2]
      have hi1b : i < (s.reflect bit_mask preserve_colors).vertices.length := by
        rw [hl1]
        exact hi2
      rw [hg2 i hi1b, hd1]
      have ht := truncate_lt bit_mask s.dimension
      have hib : i ^^^ bits.truncate_within_dimension bit_mask s.dimension
          < s.vertices.length := by
        rw [hlen]
        exact Nat.xor_lt_two_pow (by rw [← hlen]; exact hi2) ht
      cases preserve_colors with
      | false =>
          rw [if_neg (by simp),
            hg1 (i ^^^ bits.truncate_within_dimension bit_mask s.dimension) hib,
            if_neg (by simp), xor_xor_cancel]
      | true =>
          rw [if_pos rfl,
            hg1 (i ^^^ bits.truncate_within_dimension bit_mask s.dimension) hib,
            hg1 i hi2, if_pos rfl, if_pos rfl, xor_xor_cancel]
  calc (s.reflect bit_mask preserve_colors).reflect bit_mask preserve_colors
      = ⟨((s.reflect bit_mask preserve_colors).reflect bit_mask preserve_colors).dimension,
        ((s.reflect bit_mask preserve_colors).reflect bit_mask preserve_colors).vertices⟩ := rfl
    _ = ⟨s.dimension, s.vertices⟩ := by rw [hd2.trans hd1, hvert]
    _ = s := rfl

/-- **C2, witness**: double reflect with mask `-1`, pinning colors, on
the fresh dimension-1 cube restores it exactly. -/
theorem reflect_involution_witness :
    ((VertexSet.init 1).reflect (-1) true).reflect (-1) true = VertexSet.init 1 :=
  reflect_involution (VertexSet.init 1) (-1) true (by decide) (by decide)

/-! ### C1: bit-permutation analysis for `rotate` -/

theorem bits_foldl_acc : ∀ (s : List Char) (a : Nat),
    s.foldl (fun result bit => 2 * result + (if bit = '1' then 1 else 0)) a
      = a * 2 ^ s.length
        + s.foldl (fun result bit => 2 * result + (if bit = '1' then 1 else 0)) 0 := by
  intro s
  induction s with
  | nil => intro a; simp
  | cons c s ih =>
      intro a
      show List.foldl _ (2 * a + (if c = '1' then 1 else 0)) s = _
      rw [ih (2 * a + (if c = '1' then 1 else 0))]
      have h2 : List.foldl (fun result bit => 2 * result + (if bit = '1' then 1 else 0))
          (2 * 0 + (if c = '1' then 1 else 0)) s
          = (if c = '1' then 1 else 0) * 2 ^ s.length
            + List.foldl (fun result bit => 2 * result + (if bit = '1' then 1 else 0)) 0 s := by
        rw [show (2 * 0 + (if c = '1' then 1 else 0)) = (if c = '1' then 1 else 0) by omega]
        exact ih _
      show _ = a * 2 ^ (c :: s).length
        + List.foldl _ (2 * 0 + (if c = '1' then 1 else 0)) s
      rw [h2]
      have h3 : (c :: s).length = s.length + 1 := rfl
      rw [h3, pow_succ]
      ring

theorem bits_foldl_lt : ∀ (s : List Char),
    s.foldl (fun result bit => 2 * result + (if bit = '1' then 1 else 0)) 0
      < 2 ^ s.length := by
  intro s
  induction s with
  | nil => decide
  | cons c s ih =>
      show List.foldl _ (2 * 0 + (if c = '1' then 1 else 0)) s < 2 ^ (c :: s).length
      rw [show (2 * 0 + (if c = '1' then 1 else 0)) = (if c = '1' then 1 else 0) by omega,
        bits_foldl_acc]
      have h3 : (c :: s).length = s.length + 1 := rfl
      rw [h3, pow_succ]
      by_cases hc : c = '1'
      · rw [if_pos hc]
        omega
      · rw [if_neg hc]
        omega

theorem bits_foldl_inj : ∀ (s t : List Char), s.length = t.length →
    (∀ c ∈ s, c = '0' ∨ c = '1') → (∀ c ∈ t, c = '0' ∨ c = '1') →
    s.foldl (fun result bit => 2 * result + (if bit = '1' then 1 else 0)) 0
      = t.foldl (fun result bit => 2 * result + (if bit = '1' then 1 else 0)) 0 →
    s = t := by
  intro s
  induction s with
  | nil =>
      intro t hlen _ _ _
      cases t with
      | nil => rfl
      | cons d t2 => simp at hlen
  | cons c s ih =>
      intro t hlen hcs hct heq
      cases t with
      | nil => simp at hlen
      | cons d t2 =>
          have hlen2 : s.length = t2.length := by simpa using hlen
          have hs : List.foldl (fun result bit => 2 * result + (if bit = '1' then 1 else 0))
              0 (c :: s)
              = (if c = '1' then 1 else 0) * 2 ^ s.length
                + List.foldl (fun result bit => 2 * result + (if bit = '1' then 1 else 0)) 0 s := by
            show List.foldl _ (2 * 0 + (if c = '1' then 1 else 0)) s = _
            rw [show (2 * 0 + (if c = '1' then 1 else 0)) = (if c = '1' then 1 else 0) by omega]
            exact bits_foldl_acc s _
          have hT : List.foldl (fun result bit => 2 * result + (if bit = '1' then 1 else 0))
              0 (d :: t2)
              = (if d = '1' then 1 else 0) * 2 ^ t2.length
                + List.foldl (fun result bit => 2 * result + (if bit = '1' then 1 else 0)) 0 t2 := by
            show List.foldl _ (2 * 0 + (if d = '1' then 1 else 0)) t2 = _
            rw [show (2 * 0 + (if d = '1' then 1 else 0)) = (if d = '1' then 1 else 0) by omega]
            exact bits_foldl_acc t2 _
          rw [hs, hT, ← hlen2] at heq
          have hvs := bits_foldl_lt s
          have hvt := bits_foldl_lt t2
          rw [← hlen2] at hvt
          have htail : List.foldl (fun result bit => 2 * result + (if bit = '1' then 1 else 0)) 0 s
              = List.foldl (fun result bit => 2 * result + (if bit = '1' then 1 else 0)) 0 t2
              ∧ c = d := by
            rcases hcs c (by simp) with hc | hc <;> rcases hct d (by simp) with hd | hd <;>
              subst hc <;> subst hd <;> simp at heq ⊢ <;> omega
          rw [ih t2 hlen2 (fun x hx => hcs x (by simp [hx]))
            (fun x hx => hct x (by simp [hx])) htail.1, htail.2]

theorem bit_chars_length (n d : Nat) : (bits.bit_chars n d).length = d := by
  unfold bits.bit_chars
  simp

theorem bit_chars_chars (n d : Nat) : ∀ c ∈ bits.bit_chars n d, c = '0' ∨ c = '1' := by
  intro c hc
  unfold bits.bit_chars at hc
  obtain ⟨i, _, rfl⟩ := List.mem_map.mp hc
  by_cases h : n.testBit (d - 1 - i)
  · rw [if_pos h]
    exact Or.inr rfl
  · rw [if_neg h]
    exact Or.inl rfl

theorem rotation_list_perm {rl : List Nat} {d : Nat} (hlen : rl.length = d)
    (hcov : ∀ i, i < d → i ∈ rl) : (List.range d).Perm rl := by
  have hsub : List.range d ⊆ rl := by
    intro x hx
    exact hcov x (List.mem_range.mp hx)
  have hsp := List.subperm_of_subset (List.nodup_range d) hsub
  exact hsp.perm_of_length_le (by simp [hlen])

theorem map_eq_map_pointwise {α β : Type _} :
    ∀ (l : List α) (f g : α → β), l.map f = l.map g → ∀ x ∈ l, f x = g x := by
  intro l f g
  induction l with
  | nil => intro _ x hx; simp at hx
  | cons a t ih =>
      intro h x hx
      simp only [List.map_cons, List.cons.injEq] at h
      rcases List.mem_cons.mp hx with rfl | hxt
      · exact h.1
      · exact ih h.2 x hxt

theorem bit_string_to_int_ok (s : List Char) (hne : s ≠ [])
    (hc : ∀ c ∈ s, c = '0' ∨ c = '1') :
    bits.bit_string_to_int s
      = Except.ok (s.foldl (fun result bit => 2 * result + (if bit = '1' then 1 else 0)) 0) := by
  unfold bits.bit_string_to_int
  rw [if_pos ⟨hne, hc⟩]

theorem permute_eval {rl : List Nat} {d : Nat} (hlen : rl.length = d)
    (hcov : ∀ i, i < d → i ∈ rl) (hd : d ≠ 0) {n : Nat} (hn : n < 2 ^ d) :
    bits.permute_bits_by_index_list n rl d
      = Except.ok ((rl.map (fun i => (bits.bit_chars n d).getD i '?')).foldl
          (fun result bit => 2 * result + (if bit = '1' then 1 else 0)) 0) := by
  have hmem : ∀ i ∈ rl, i < d := by
    intro i hi
    exact List.mem_range.mp ((rotation_list_perm hlen hcov).mem_iff.mpr hi)
  unfold bits.permute_bits_by_index_list
  rw [if_neg (by simp [hlen]), if_neg (by
    push_neg
    intro i hi
    exact hcov i (List.mem_range.mp hi))]
  unfold bits.int_to_bit_string
  rw [if_neg (by omega), if_neg hd]
  show bits.bit_string_to_int (rl.map (fun i => (bits.bit_chars n d).getD i '?')) = _
  apply bit_string_to_int_ok
  · intro hnil
    have h1 := congrArg List.length hnil
    simp [hlen] at h1
    exact hd h1
  · intro x hx
    obtain ⟨i, hi, rfl⟩ := List.mem_map.mp hx
    have hilt : i < (bits.bit_chars n d).length := by
      rw [bit_chars_length]
      exact hmem i hi
    rw [getD_of_lt _ _ hilt]
    exact bit_chars_chars n d _ (List.getElem_mem hilt)

theorem permute_lt {rl : List Nat} {d : Nat} (hlen : rl.length = d) (n : Nat) :
    (rl.map (fun i => (bits.bit_chars n d).getD i '?')).foldl
      (fun result bit => 2 * result + (if bit = '1' then 1 else 0)) 0 < 2 ^ d := by
  have h := bits_foldl_lt (rl.map (fun i => (bits.bit_chars n d).getD i '?'))
  rwa [List.length_map, hlen] at h

theorem permute_inj {rl : List Nat} {d : Nat} (hlen : rl.length = d)
    (hcov : ∀ i, i < d → i ∈ rl) {a b : Nat} (ha : a < 2 ^ d) (hb : b < 2 ^ d)
    (heq : (rl.map (fun i => (bits.bit_chars a d).getD i '?')).foldl
        (fun result bit => 2 * result + (if bit = '1' then 1 else 0)) 0
      = (rl.map (fun i => (bits.bit_chars b d).getD i '?')).foldl
        (fun result bit => 2 * result + (if bit = '1' then 1 else 0)) 0) :
    a = b := by
  have hmem : ∀ i ∈ rl, i < d := by
    intro i hi
    exact List.mem_range.mp ((rotation_list_perm hlen hcov).mem_iff.mpr hi)
  have hchars : ∀ (m : Nat), ∀ c ∈ rl.map (fun i => (bits.bit_chars m d).getD i '?'),
      c = '0' ∨ c = '1' := by
    intro m c hc
    obtain ⟨i, hi, rfl⟩ := List.mem_map.mp hc
    have hilt : i < (bits.bit_chars m d).length := by
      rw [bit_chars_length]
      exact hmem i hi
    rw [getD_of_lt _ _ hilt]
    exact bit_chars_chars m d _ (List.getElem_mem hilt)
  have hmapeq := bits_foldl_inj _ _ (by simp) (hchars a) (hchars b) heq
  have hpt := map_eq_map_pointwise rl _ _ hmapeq
  apply Nat.eq_of_testBit_eq
  intro i
  by_cases hi : i < d
  · have hii := hpt (d - 1 - i) (hcov _ (by omega))
    rw [bit_chars_getD (show d - 1 - i < d by omega),
      bit_chars_getD (show d - 1 - i < d by omega)] at hii
    rw [show d - 1 - (d - 1 - i) = i by omega] at hii
    cases hta : a.testBit i <;> cases htb : b.testBit i <;>
      rw [hta, htb] at hii <;> simp at hii ⊢
  · rw [Nat.testBit_eq_false_of_lt (by
        calc a < 2 ^ d := ha
        _ ≤ 2 ^ i := Nat.pow_le_pow_right (by omega) (by omega)),
      Nat.testBit_eq_false_of_lt (by
        calc b < 2 ^ d := hb
        _ ≤ 2 ^ i := Nat.pow_le_pow_right (by omega) (by omega))]

/-! ### C1: every public operation preserves the id bijection -/

theorem move_invariant (s : VertexSet) (f : Nat → Nat) (p : Bool)
    (hf : ∀ ℓ, ℓ < s.vertices.length → f ℓ < s.vertices.length)
    (hinj : ∀ a, a < s.vertices.length → ∀ b, b < s.vertices.length → f a = f b → a = b) :
    (((if p then s.map_to_locations_not_colors f else s.map_to_locations f)).vertices.map
      Vertex.vertex_id).Perm (s.vertices.map Vertex.vertex_id)
    ∧ (if p then s.map_to_locations_not_colors f else s.map_to_locations f).dimension
        = s.dimension := by
  have hperm0 := map_range_perm_of_inj s.vertices.length f hf hinj
  have hmoved := map_to_locations_perm s f hperm0
  cases p with
  | false =>
      rw [if_neg (by simp)]
      exact ⟨hmoved.map Vertex.vertex_id, rfl⟩
  | true =>
      rw [if_pos rfl]
      have h1 := (recolorLoop_map_id ((List.range s.vertices.length).map
        (fun location => (location, (s.vertices.getD location default).color_string)))
        (s.map_to_locations f))
      constructor
      · show ((recolorLoop (s.map_to_locations f) _).vertices.map Vertex.vertex_id).Perm _
        rw [h1.1]
        exact hmoved.map Vertex.vertex_id
      · show (recolorLoop (s.map_to_locations f) _).dimension = s.dimension
        rw [h1.2]
        rfl

theorem reflect_invariant (s : VertexSet) (bit_mask : Int) (p : Bool)
    (hlen : s.vertices.length = 2 ^ s.dimension) :
    ((s.reflect bit_mask p).vertices.map Vertex.vertex_id).Perm
      (s.vertices.map Vertex.vertex_id)
    ∧ (s.reflect bit_mask p).dimension = s.dimension := by
  have ht := truncate_lt bit_mask s.dimension
  exact move_invariant s
    (fun ℓ => ℓ ^^^ bits.truncate_within_dimension bit_mask s.dimension) p
    (by
      intro ℓ hℓ
      rw [hlen] at hℓ ⊢
      exact Nat.xor_lt_two_pow hℓ ht)
    (by
      intro a _ b _ hab
      have h2 := congrArg (fun x => x ^^^ bits.truncate_within_dimension bit_mask s.dimension) hab
      simpa [xor_xor_cancel] using h2)

theorem rotate_invariant (s : VertexSet) (rl : List Nat) (p : Bool)
    (hvlen : rl.length = s.dimension) (hvcov : ∀ i, i < s.dimension → i ∈ rl)
    (hlen : s.vertices.length = 2 ^ s.dimension) :
    ((s.rotate rl p).vertices.map Vertex.vertex_id).Perm (s.vertices.map Vertex.vertex_id)
    ∧ (s.rotate rl p).dimension = s.dimension := by
  by_cases hd : s.dimension = 0
  · have hrl : rl = [] := List.length_eq_zero.mp (by rw [hvlen, hd])
    subst hrl
    unfold VertexSet.rotate
    have heval : bits.permute_bits_by_index_list 0 [] s.dimension
        = Except.error "Badly formed bit string" := by
      rw [hd]
      rfl
    rw [heval]
    exact ⟨List.Perm.refl _, rfl⟩
  · cases hm : bits.permute_bits_by_index_list 0 rl s.dimension with
    | error e =>
        unfold VertexSet.rotate
        rw [hm]
        exact ⟨List.Perm.refl _, rfl⟩
    | ok w =>
        unfold VertexSet.rotate
        rw [hm]
        have heval : ∀ ℓ, ℓ < s.vertices.length →
            (bits.permute_bits_by_index_list ℓ rl s.dimension).toOption.getD 0
              = (rl.map (fun i => (bits.bit_chars ℓ s.dimension).getD i '?')).foldl
                  (fun result bit => 2 * result + (if bit = '1' then 1 else 0)) 0 := by
          intro ℓ hℓ
          rw [permute_eval hvlen hvcov hd (by rw [← hlen]; exact hℓ)]
          rfl
        have hf : ∀ ℓ, ℓ < s.vertices.length →
            (bits.permute_bits_by_index_list ℓ rl s.dimension).toOption.getD 0
              < s.vertices.length := by
          intro ℓ hℓ
          rw [heval ℓ hℓ, hlen]
          exact permute_lt hvlen ℓ
        have hinj : ∀ a, a < s.vertices.length → ∀ b, b < s.vertices.length →
            (bits.permute_bits_by_index_list a rl s.dimension).toOption.getD 0
              = (bits.permute_bits_by_index_list b rl s.dimension).toOption.getD 0 →
            a = b := by
          intro a hA b hB hab
          rw [heval a hA, heval b hB] at hab
          exact permute_inj hvlen hvcov (by rw [← hlen]; exact hA)
            (by rw [← hlen]; exact hB) hab
        exact move_invariant s _ p hf hinj

theorem reset_invariant (s : VertexSet)
    (hids : (s.vertices.map Vertex.vertex_id).Perm (List.range s.vertices.length)) :
    ((s.reset_positions).vertices.map Vertex.vertex_id).Perm
      (s.vertices.map Vertex.vertex_id)
    ∧ (s.reset_positions).dimension = s.dimension := by
  refine ⟨?_, rfl⟩
  show ((applyWrites s.vertices (s.vertices.map (fun v => (v.vertex_id, v)))).map
    Vertex.vertex_id).Perm _
  have h1 : (s.vertices.map (fun v => (v.vertex_id, v))).map Prod.fst
      = s.vertices.map Vertex.vertex_id := by
    rw [List.map_map]
    rfl
  have h2 : (s.vertices.map (fun v => (v.vertex_id, v))).map Prod.snd = s.vertices := by
    rw [List.map_map]
    show s.vertices.map (fun v => v) = s.vertices
    exact List.map_id' s.vertices
  have h3 := applyWrites_perm s.vertices (s.vertices.map (fun v => (v.vertex_id, v)))
    (by rw [h1]; exact hids)
  rw [h2] at h3
  exact h3.map Vertex.vertex_id

theorem color_vertices_map_id : ∀ (ids : List Nat) (s : VertexSet) (c : Option String),
    ((s.color_vertices_by_id_list ids c).1).vertices.map Vertex.vertex_id
      = s.vertices.map Vertex.vertex_id
    ∧ ((s.color_vertices_by_id_list ids c).1).dimension = s.dimension := by
  intro ids
  induction ids with
  | nil => intro s c; exact ⟨rfl, rfl⟩
  | cons j t ih =>
      intro s c
      show ((match s.color_by_id j c with
          | none => (s, true)
          | some s2 => s2.color_vertices_by_id_list t c).1.vertices.map Vertex.vertex_id
            = s.vertices.map Vertex.vertex_id)
        ∧ ((match s.color_by_id j c with
          | none => (s, true)
          | some s2 => s2.color_vertices_by_id_list t c).1.dimension = s.dimension)
      cases hc : s.color_by_id j c with
      | none => exact ⟨rfl, rfl⟩
      | some s2 =>
          obtain ⟨h1, h2⟩ := color_by_id_map_id hc
          obtain ⟨g1, g2⟩ := ih s2 c
          exact ⟨g1.trans h1, g2.trans h2⟩

theorem applyOp_invariant (dimension : Nat) (c : Cube) (op : Op)
    (hv : ValidOp dimension op)
    (hdim : c.vertex_set.dimension = dimension)
    (hperm : (c.vertex_set.vertices.map Vertex.vertex_id).Perm
      (List.range (2 ^ dimension))) :
    (applyOp c op).vertex_set.dimension = dimension
    ∧ ((applyOp c op).vertex_set.vertices.map Vertex.vertex_id).Perm
        (List.range (2 ^ dimension)) := by
  have hlen : c.vertex_set.vertices.length = 2 ^ dimension := by
    have h1 := hperm.length_eq
    simpa using h1
  cases op with
  | rotate rl p =>
      obtain ⟨h1, h2⟩ := hv
      have hro := rotate_invariant c.vertex_set rl p (by rw [hdim]; exact h1)
        (by rw [hdim]; intro i hi; exact h2 i hi) (by rw [hdim]; exact hlen)
      exact ⟨hro.2.trans hdim, hro.1.trans hperm⟩
  | reflect m p =>
      have hro := reflect_invariant c.vertex_set m p (by rw [hdim]; exact hlen)
      exact ⟨hro.2.trans hdim, hro.1.trans hperm⟩
  | reset =>
      have hro := reset_invariant c.vertex_set (by rw [hlen]; exact hperm)
      exact ⟨hro.2.trans hdim, hro.1.trans hperm⟩
  | colorVertices ids color =>
      obtain ⟨h1, h2⟩ := color_vertices_map_id ids c.vertex_set (some color)
      exact ⟨h2.trans hdim, h1 ▸ hperm⟩
  | uncolorVertices ids =>
      obtain ⟨h1, h2⟩ := color_vertices_map_id ids c.vertex_set (some "")
      exact ⟨h2.trans hdim, h1 ▸ hperm⟩
  | colorEdges ids color => exact ⟨hdim, hperm⟩
  | uncolorEdges ids => exact ⟨hdim, hperm⟩

theorem applyOps_invariant (dimension : Nat) : ∀ (ops : List Op) (c : Cube),
    (∀ op ∈ ops, ValidOp dimension op) →
    c.vertex_set.dimension = dimension →
    (c.vertex_set.vertices.map Vertex.vertex_id).Perm (List.range (2 ^ dimension)) →
    (applyOps c ops).vertex_set.dimension = dimension
    ∧ ((applyOps c ops).vertex_set.vertices.map Vertex.vertex_id).Perm
        (List.range (2 ^ dimension)) := by
  intro ops
  induction ops with
  | nil => intro c _ h1 h2; exact ⟨h1, h2⟩
  | cons op t ih =>
      intro c hv h1 h2
      obtain ⟨g1, g2⟩ := applyOp_invariant dimension c op (hv op (by simp)) h1 h2
      exact ih (applyOp c op) (fun o ho => hv o (by simp [ho])) g1 g2

/-- **C1.**  Starting from a fresh cube of any dimension `d` and applying
any sequence of valid public operations—rotate with a valid index list,
reflect with any mask, reset, and the vertex/edge color and uncolor
operations—the vertex ids at the `2^d` locations are always exactly a
permutation of `0, …, 2^d - 1`: every id occupies exactly one location
and every location holds exactly one vertex. -/
theorem bijection_invariant (dimension : Nat) (ops : List Op)
    (hv : ∀ op ∈ ops, ValidOp dimension op) :
    ((applyOps (Cube.init dimension) ops).vertex_set.vertices.map Vertex.vertex_id).Perm
      (List.range (2 ^ dimension)) := by
  have hinit : (Cube.init dimension).vertex_set.vertices.map Vertex.vertex_id
      = List.range (2 ^ dimension) := by
    show ((List.range (bits.how_many_bit_strings dimension)).map
      (fun i => { color_string := none, vertex_id := i, dimension := dimension : Vertex })).map
        Vertex.vertex_id = _
    rw [List.map_map]
    show (List.range (2 ^ dimension)).map (fun i => i) = _
    exact List.map_id' _
  exact (applyOps_invariant dimension ops (Cube.init dimension) hv rfl
    (by rw [hinit])).2

/-- **C1, witness**: a concrete sequence of valid operations on the
dimension-2 cube keeps the ids a permutation of `0, 1, 2, 3`. -/
theorem bijection_invariant_witness :
    ((applyOps (Cube.init 2) [Op.rotate [1, 0] true, Op.reflect (-3) false, Op.reset,
        Op.colorVertices [0, 3] "R", Op.uncolorEdges [0, 1]]).vertex_set.vertices.map
      Vertex.vertex_id).Perm (List.range (2 ^ 2)) :=
  bijection_invariant 2 _ (by
    intro op hop
    rcases List.mem_cons.mp hop with rfl | hop
    · exact ⟨rfl, by decide⟩
    · rcases List.mem_cons.mp hop with rfl | hop
      · trivial
      · rcases List.mem_cons.mp hop with rfl | hop
        · trivial
        · rcases List.mem_cons.mp hop with rfl | hop
          · trivial
          · rcases List.mem_cons.mp hop with rfl | hop
            · trivial
            · simp at hop)

/-! ### C3: automorphisms and reset never touch the edge set -/

/-- **C3.**  `rotate`, `reflect` and `reset_positions` change only the
vertex set of a cube: the edge set—with all its id pairs and color
tags—is the identical association list before and after, for any
arguments whatsoever. -/
theorem edges_unchanged (c : Cube) (rotation_list : List Nat) (bit_mask : Int)
    (p q : Bool) :
    (c.rotate rotation_list p).edge_set = c.edge_set
    ∧ (c.reflect bit_mask q).edge_set = c.edge_set
    ∧ (c.reset_positions).edge_set = c.edge_set :=
  ⟨rfl, rfl, rfl⟩

end Cubes
